import Mathlib

/-!
Verification development for the hybrid retrieval engine of the
`rag-demo` repository.

The Python modules `src/sparse.py` and `src/retriever.py` are shallowly
embedded below: pure functions become Lean functions, Python `float`
scores become `ℚ`, Python exceptions become `Except PErr`, Python dicts
become association lists that preserve insertion order, and Python's
stable `sorted` becomes `List.insertionSort` with the corresponding
"may come first" relation (insertion sort with that stopping rule is
stable, like every sort Python is allowed to use).
-/

namespace RagDemo

/-! ### Python-style enumeration

`pyEnumerate start l` models Python's `enumerate(l, start=start)`. -/

def pyEnumerate (start : Nat) : List α → List (Nat × α)
  | [] => []
  | a :: l => (start, a) :: pyEnumerate (start + 1) l

/-! ### Tokenizer (`src/sparse.py`, `tokenize`)

`tokenize` embeds `re.findall(r"[a-z0-9](?:[a-z0-9-]*[a-z0-9])?", text.lower())`.
`re.findall` scans left to right; at the first character of the class
`[a-z0-9]` the greedy match takes the longest stretch of `[a-z0-9-]`
characters that ends in `[a-z0-9]` (i.e. the run of token characters
starting there with its trailing hyphens cut off), and scanning resumes
after the match. -/

/-- The character class `[a-z0-9]` of the token pattern (the input is
lowercased before matching, so uppercase letters never reach it). -/
def isAlnum (c : Char) : Bool := ('a' ≤ c && c ≤ 'z') || ('0' ≤ c && c ≤ '9')

/-- The character class `[a-z0-9-]` (characters a token body may contain). -/
def isTokChar (c : Char) : Bool := isAlnum c || c == '-'

/-- Cut trailing hyphens off a candidate run, as the greedy pattern does
(the match must end in `[a-z0-9]`). -/
def dropTrailingHyphens (l : List Char) : List Char :=
  (l.reverse.dropWhile (fun c => c == '-')).reverse

theorem isAlnum_ne_hyphen {c : Char} (h : isAlnum c = true) : (c == '-') = false := by
  cases hc : c == '-'
  · rfl
  · rw [beq_iff_eq] at hc
    subst hc
    simp [isAlnum] at h

theorem dropTrailingHyphens_cons_ne_nil {c : Char} (t : List Char)
    (hc : (c == '-') = false) : dropTrailingHyphens (c :: t) ≠ [] := by
  intro h
  unfold dropTrailingHyphens at h
  rw [List.reverse_eq_nil_iff, List.dropWhile_eq_nil_iff] at h
  have := h c (by simp)
  rw [this] at hc
  exact Bool.false_ne_true hc.symm

theorem length_pos_of_ne_nil {l : List α} (h : l ≠ []) : 0 < l.length :=
  List.length_pos.mpr h

/-- The match scanner of `re.findall` for the token pattern: skip
characters outside `[a-z0-9]`, and at each match emit the token and
resume right after it. -/
def findTokens : List Char → List (List Char)
  | [] => []
  | c :: cs =>
    if h : isAlnum c then
      dropTrailingHyphens ((c :: cs).takeWhile isTokChar) ::
        findTokens ((c :: cs).drop (dropTrailingHyphens ((c :: cs).takeWhile isTokChar)).length)
    else findTokens cs
termination_by l => l.length
decreasing_by
  · have htw : (c :: cs).takeWhile isTokChar = c :: cs.takeWhile isTokChar := by
      rw [List.takeWhile_cons_of_pos]
      simp [isTokChar, h]
    have hne : dropTrailingHyphens ((c :: cs).takeWhile isTokChar) ≠ [] := by
      rw [htw]
      exact dropTrailingHyphens_cons_ne_nil _ (isAlnum_ne_hyphen h)
    have hpos := length_pos_of_ne_nil hne
    have hlen : 0 < (c :: cs).length := by simp
    simp only [List.length_drop]
    omega
  · simp

/-- `tokenize` from `src/sparse.py`: lowercase, then extract the token
pattern matches.  `Char.toLower` lowercases the ASCII range, which is all
the pattern can match. -/
def tokenize (s : String) : List String :=
  (findTokens (s.data.map Char.toLower)).map (fun t => String.mk t)

/-! ### JSON-like values and the filter evaluator
(`src/retriever.py`, `_evaluate_condition` / `apply_filters`)

Python where-clauses and metadata records are JSON-like dicts.  `J`
models the values that occur: strings, booleans, lists and dicts
(dicts as insertion-ordered association lists with unique keys, the only
dicts Python can build). -/

inductive J where
  | s (v : String)
  | b (v : Bool)
  | arr (l : List J)
  | obj (l : List (String × J))

/-- The Python exceptions this embedding distinguishes: `TypeError` /
`AttributeError` raised by the dynamic operations inside
`_evaluate_condition`, and failures of the external vector port. -/
inductive PErr where
  | typeError
  | portFailure
deriving DecidableEq

/-- Dict lookup (`d[k]` / `d.get(k)`): first matching key.  Keys of a
Python dict are unique, so first match is the only match. -/
def lookupJ : List (String × J) → String → Option J
  | [], _ => none
  | (k, v) :: rest, key => if k == key then some v else lookupJ rest key

theorem sizeOf_lookupJ {l : List (String × J)} {key : String} {v : J}
    (h : lookupJ l key = some v) : sizeOf v < sizeOf l := by
  induction l with
  | nil => simp [lookupJ] at h
  | cons p rest ih =>
    obtain ⟨k, w⟩ := p
    by_cases hk : (k == key) = true
    · simp [lookupJ, hk] at h
      subst h
      simp
      omega
    · simp [lookupJ, hk] at h
      have := ih h
      simp
      omega

mutual
/-- Python `==` on the values of `J`.  Strings and booleans compare by
value, lists pointwise.  Dicts compare pointwise in order here; Python
compares dicts as unordered mappings, but no dict ever reaches an
equality test in this program (metadata values are strings or booleans),
so the cases agree on everything reachable. -/
def jEq : J → J → Bool
  | .s a, .s b => a == b
  | .b a, .b b => a == b
  | .arr a, .arr b => jEqL a b
  | .obj a, .obj b => jEqO a b
  | _, _ => false
def jEqL : List J → List J → Bool
  | [], [] => true
  | a :: as, b :: bs => jEq a b && jEqL as bs
  | _, _ => false
def jEqO : List (String × J) → List (String × J) → Bool
  | [], [] => true
  | (ka, va) :: as, (kb, vb) :: bs => ka == kb && jEq va vb && jEqO as bs
  | _, _ => false
end

mutual
/-- Python `<` on `J` values: strings lexicographically by code point,
booleans as the integers 0/1, lists lexicographically (elements are
first compared with `==`, then with `<`, which may raise), everything
else raises `TypeError`. -/
def jLt : J → J → Except PErr Bool
  | .s a, .s b => .ok (decide (a < b))
  | .b a, .b b => .ok (a == false && b == true)
  | .arr a, .arr b => jLtL a b
  | _, _ => .error .typeError
def jLtL : List J → List J → Except PErr Bool
  | [], [] => .ok false
  | [], _ :: _ => .ok true
  | _ :: _, [] => .ok false
  | a :: as, b :: bs => if jEq a b then jLtL as bs else jLt a b
end

/-- Python `<=`: equal values compare `True` without raising; unequal
values compare exactly like `<`. -/
def jLe (v t : J) : Except PErr Bool := if jEq v t then .ok true else jLt v t

/-- Python `value == target` where `value` may be the absent-field
`None` (`meta.get` miss): `None` equals none of the values of `J`. -/
def pyEqOpt (value : Option J) (target : J) : Bool :=
  match value with
  | some x => jEq x target
  | none => false

/-- Python `value in target` where `value` may be `None`.  Lists test
membership with `==`; a string target tests substring containment and
raises `TypeError` for non-string operands (including `None`); a dict
target tests key membership (hashable operands only); booleans are not
containers. -/
def jInOpt (value : Option J) (target : J) : Except PErr Bool :=
  match target with
  | .arr l => .ok (l.any fun e => pyEqOpt value e)
  | .s bstr =>
    match value with
    | some (.s a) => .ok (a.data.IsInfix bstr.data |> decide)
    | _ => .error .typeError
  | .obj l =>
    match value with
    | some (.s a) => .ok (l.any fun kv => kv.1 == a)
    | some (.b _) => .ok false
    | none => .ok false
    | some _ => .error .typeError
  | .b _ => .error .typeError

/-- One pass of the operator loop `for op, target in constraint.items()` of
`_evaluate_condition`: each recognised operator may short-circuit with
`return False` (and ordering or membership tests may raise `TypeError`);
an operator that matches none of the eight recognised names is silently
skipped, and falling off the loop means the constraint held. -/
def evalOps (value : Option J) : List (String × J) → Except PErr Bool
  | [] => .ok true
  | (op, target) :: rest =>
    if op == "$eq" then
      if pyEqOpt value target then evalOps value rest else .ok false
    else if op == "$ne" then
      if pyEqOpt value target then .ok false else evalOps value rest
    else if op == "$gt" then
      match value with
      | none => .ok false
      | some v => do
        let c ← jLt target v
        if c then evalOps value rest else pure false
    else if op == "$gte" then
      match value with
      | none => .ok false
      | some v => do
        let c ← jLe target v
        if c then evalOps value rest else pure false
    else if op == "$lt" then
      match value with
      | none => .ok false
      | some v => do
        let c ← jLt v target
        if c then evalOps value rest else pure false
    else if op == "$lte" then
      match value with
      | none => .ok false
      | some v => do
        let c ← jLe v target
        if c then evalOps value rest else pure false
    else if op == "$in" then do
      let c ← jInOpt value target
      if c then evalOps value rest else pure false
    else if op == "$nin" then do
      let c ← jInOpt value target
      if c then .ok false else evalOps value rest
    else evalOps value rest

/-- The field loop `for field, constraint in condition.items()` of
`_evaluate_condition`: look the field up in the metadata record
(`meta.get(field)`, `none` when absent), treat a dict constraint as an
operator map and anything else as the equality shorthand
`(field, value)`; the first failing field returns `False`, and a
condition whose fields all hold returns `True`. -/
def evalFields (meta : List (String × J)) : List (String × J) → Except PErr Bool
  | [] => .ok true
  | (field, constraint) :: rest =>
    match constraint with
    | .obj ops => do
      let c ← evalOps (lookupJ meta field) ops
      if c then evalFields meta rest else pure false
    | _ =>
      if pyEqOpt (lookupJ meta field) constraint then evalFields meta rest
      else .ok false

mutual
/-- Embedding of `_evaluate_condition(meta, condition)` from
`src/retriever.py`.  A condition containing the key `$and` (checked
first) or `$or` is a composite evaluated over `condition["$and"]` with
Python's short-circuiting `all` / `any`; otherwise each field of the
condition is a constraint on the metadata record. -/
def evalCond (meta : List (String × J)) (cond : List (String × J)) : Except PErr Bool :=
  match hA : lookupJ cond "$and" with
  | some v => evalConnective meta true v
  | none =>
    match hO : lookupJ cond "$or" with
    | some v => evalConnective meta false v
    | none => evalFields meta cond
termination_by sizeOf cond
decreasing_by
  · exact sizeOf_lookupJ hA
  · exact sizeOf_lookupJ hO

/-- Iteration of `all(...)` (`isAll = true`) or `any(...)` over the value
stored under `$and` / `$or`.  A list iterates its conditions; iterating a
string or a dict yields strings, and iterating a boolean raises, so with
Python's lazy generators a non-empty string or dict raises on its first
element and an empty one short-circuits to the connective's unit. -/
def evalConnective (meta : List (String × J)) (isAll : Bool) : J → Except PErr Bool
  | .arr l => evalCondList meta isAll l
  | .s str => if str.isEmpty then .ok isAll else .error .typeError
  | .obj o => if o.isEmpty then .ok isAll else .error .typeError
  | .b _ => .error .typeError
termination_by v => sizeOf v
decreasing_by
  simp

/-- Short-circuiting fold of `all` / `any` over a list of child
conditions; a child that is not a dict raises (`.items()` on a non-dict). -/
def evalCondList (meta : List (String × J)) (isAll : Bool) : List J → Except PErr Bool
  | [] => .ok isAll
  | c :: cs =>
    match c with
    | .obj o => do
      let r ← evalCond meta o
      if r == isAll then evalCondList meta isAll cs else pure (!isAll)
    | _ => .error .typeError
termination_by l => sizeOf l
decreasing_by
  all_goals simp
  all_goals omega
end

/-! ### Articles and post-hoc metadata filtering
(`src/retriever.py`, `apply_filters`) -/

/-- A KB article record (see the document input format and
`data/generate_dataset.py`); all fields are always present, so the
`article.get(field, default)` calls in the source never fall back. -/
structure Article where
  doc_id : String
  title : String
  body : String
  region : String
  product_version : String
  category : String
  deprecated : Bool
  effective_date : String
  error_codes : List String
deriving DecidableEq

/-- A where-clause / condition dict. -/
abbrev Cond := List (String × J)

/-- The flattened metadata record `apply_filters` builds for one
article; note the multi-valued `error_codes` list is collapsed into a
comma-joined string stored under the key `error_codes_str`. -/
def flattenMeta (a : Article) : Cond :=
  [ ("region", .s a.region),
    ("product_version", .s a.product_version),
    ("category", .s a.category),
    ("deprecated", .b a.deprecated),
    ("effective_date", .s a.effective_date),
    ("error_codes_str", .s (String.intercalate "," a.error_codes)) ]

/-- The dict comprehension `{a["doc_id"]: a for a in documents}`: a
lookup table in which a later article with the same `doc_id` overwrites
an earlier one. -/
def articlesById (docs : List Article) (key : String) : Option Article :=
  docs.reverse.find? (fun a => a.doc_id == key)

/-- The loop body of `apply_filters`: skip results whose `doc_id` is not
in the mapping, evaluate the condition on the article's flattened
metadata (an evaluation error aborts the whole call, as the uncaught
Python exception would), and keep the result on `True`. -/
def applyFiltersGo (docIdOf : α → String) (w : Cond)
    (articlesBy : String → Option Article) : List α → Except PErr (List α)
  | [] => .ok []
  | r :: rs =>
    match articlesBy (docIdOf r) with
    | none => applyFiltersGo docIdOf w articlesBy rs
    | some a => do
      let c ← evalCond (flattenMeta a) w
      let rest ← applyFiltersGo docIdOf w articlesBy rs
      pure (if c then r :: rest else rest)

/-- Embedding of `apply_filters(results, where, articles_by_id)`.  It is
generic in the result record type (the source only reads `r["doc_id"]`),
and an empty (falsy) where-clause returns the input list unchanged. -/
def apply_filters (docIdOf : α → String) (results : List α) (w : Cond)
    (articlesBy : String → Option Article) : Except PErr (List α) :=
  if w.isEmpty then .ok results
  else applyFiltersGo docIdOf w articlesBy results

/-! ### BM25 sparse index (`src/sparse.py`, `BM25Index.search`) -/

/-- A BM25 search result row (`doc_id`, `score`, `rank`). -/
structure BMItem where
  doc_id : String
  score : ℚ
  rank : Nat
deriving DecidableEq

/-- BM25 smoothing constant `k1 = 1.5`. -/
def bm25K1 : ℚ := 3 / 2

/-- BM25 smoothing constant `b = 0.75`. -/
def bm25B : ℚ := 3 / 4

/-- The tokenised corpus `BM25Index.__init__` builds: title and body
joined by a space, tokenised. -/
def corpusTokens (docs : List Article) : List (List String) :=
  docs.map (fun d => tokenize (d.title ++ " " ++ d.body))

/-- Modelled from the spec: `BM25Okapi.get_scores` comes from the
`rank_bm25` dependency, whose code is not part of this repository.
Component 4.2 of the spec fixes the scoring shape: with `k1 = 1.5` and
`b = 0.75`, each query-token occurrence contributes
`idf(term) * (tf * (k1+1)) / (tf + k1 * (1 - b + b * docLen/avgDocLen))`
to a document's score, and terms unseen in the document contribute zero
(their `tf` is 0).  The `idf` table is left abstract (a parameter),
since the spec does not fix its formula; every theorem below holds for
every `idf`. -/
def get_scores (idf : String → ℚ) (corpus : List (List String))
    (query : List String) : List ℚ :=
  let avgdl : ℚ := ((corpus.map fun d => (d.length : ℚ)).sum) / (corpus.length : ℚ)
  corpus.map fun doc =>
    (query.map fun t =>
      let tf : ℚ := (doc.count t : ℚ)
      idf t * (tf * (bm25K1 + 1)) /
        (tf + bm25K1 * (1 - bm25B + bm25B * (doc.length : ℚ) / avgdl))).sum

/-- Model of Python's stable `sorted(l, key=key, reverse=True)`:
insertion sort that lets `a` stay in front of `b` exactly when
`key b ≤ key a`.  Equal keys therefore keep their input order, as in
every stable sort (CPython's Timsort included; `reverse=True` does not
reorder equal elements). -/
def pySortDescBy (key : α → ℚ) (l : List α) : List α :=
  List.insertionSort (fun a b => key b ≤ key a) l

/-- Embedding of `BM25Index.search(query, top_k)`: score every document,
sort `zip(doc_ids, scores)` by descending score with Python's stable
sort, truncate to `top_k` and attach ranks `enumerate(..., start=1)`. -/
def bm25Search (idf : String → ℚ) (docs : List Article) (query : String)
    (top_k : Nat) : List BMItem :=
  let doc_ids := docs.map (fun d => d.doc_id)
  let scores := get_scores idf (corpusTokens docs) (tokenize query)
  let scored := pySortDescBy (fun p => p.2) (doc_ids.zip scores)
  (pyEnumerate 1 (scored.take top_k)).map fun p => ⟨p.2.1, p.2.2, p.1⟩

/-! ### Reciprocal rank fusion (`src/retriever.py`, `reciprocal_rank_fusion`) -/

/-- A display-ready result row, the dict shape both branches feed into
fusion (`doc_id`, display fields, `score`, `rank`). -/
structure RDoc where
  doc_id : String
  title : String
  body : String
  region : String
  product_version : String
  category : String
  deprecated : Bool
  score : ℚ
  rank : Nat
deriving DecidableEq

/-- The display fields of a result row: the dict comprehension
`{key: r[key] for key in r if key not in ("score", "rank")}`. -/
structure DocData where
  doc_id : String
  title : String
  body : String
  region : String
  product_version : String
  category : String
  deprecated : Bool
deriving DecidableEq

/-- Drop `score` and `rank` from a result row. -/
def stripScoreRank (r : RDoc) : DocData :=
  ⟨r.doc_id, r.title, r.body, r.region, r.product_version, r.category, r.deprecated⟩

/-- Python dict update `scores[key] = scores.get(key, 0.0) + v`: an
existing key keeps its position, a new key is appended. -/
def rrfAdd (key : String) (v : ℚ) : List (String × ℚ) → List (String × ℚ)
  | [] => [(key, v)]
  | (k0, s0) :: rest =>
    if k0 == key then (k0, s0 + v) :: rest else (k0, s0) :: rrfAdd key v rest

/-- Python `if key not in doc_data: doc_data[key] = d`: first writer
wins, a new key is appended. -/
def dataAdd (key : String) (d : DocData) : List (String × DocData) → List (String × DocData)
  | [] => [(key, d)]
  | p :: rest => if p.1 == key then p :: rest else p :: dataAdd key d rest

/-- First-match lookup in the `doc_data` association list. -/
def lookupData : List (String × DocData) → String → Option DocData
  | [], _ => none
  | p :: rest, key => if p.1 == key then some p.2 else lookupData rest key

/-- One result row's contribution inside the nested accumulation loops of
`reciprocal_rank_fusion`. -/
def rrfStep (k : ℚ) (st : List (String × ℚ) × List (String × DocData))
    (r : RDoc) : List (String × ℚ) × List (String × DocData) :=
  (rrfAdd r.doc_id (1 / (k + (r.rank : ℚ))) st.1,
   dataAdd r.doc_id (stripScoreRank r) st.2)

/-- Embedding of `reciprocal_rank_fusion(result_lists, k=60)`.  The two
nested loops are the fold over the concatenation; `sorted(scores,
key=..., reverse=True)` sorts the dict's keys, which iterate in
insertion order, stably by descending score.  The `none` fallback row is
unreachable: `scores` and `doc_data` always hold exactly the same keys
(Python would raise `KeyError` there). -/
def reciprocal_rank_fusion (result_lists : List (List RDoc)) (k : ℚ := 60) : List RDoc :=
  let st := (result_lists.flatten).foldl (rrfStep k) ([], [])
  let sortedPairs := pySortDescBy (fun p => p.2) st.1
  (pyEnumerate 1 sortedPairs).map fun p =>
    match lookupData st.2 p.2.1 with
    | some d => ⟨d.doc_id, d.title, d.body, d.region, d.product_version,
                 d.category, d.deprecated, p.2.2, p.1⟩
    | none => ⟨p.2.1, "", "", "", "", "", false, p.2.2, p.1⟩

/-! ### Dense search (`src/retriever.py`, `search_dense`)

The external ChromaDB collection is modelled as a port function
`port : Nat → Option Cond → Except PErr ChromaQR` standing for
`collection.query(query_embeddings=..., n_results=n, where?=w)` for the
one query embedding at hand; it may fail. -/

/-- The per-query slices of ChromaDB's answer:
`query_result["ids"][0]` and friends. -/
structure ChromaQR where
  ids : List String
  documents : List String
  metadatas : List Cond
  distances : List ℚ

/-- Python truthiness of the `where` argument (`if where:`): `None` and
the empty dict are falsy. -/
def condTruthy : Option Cond → Bool
  | none => false
  | some c => !c.isEmpty

/-- Read a string metadata value with `meta.get(key, "")`; the metadata
values stored under the string-valued keys are strings (see the
indexer), so the default only covers absence. -/
def metaGetS (m : Cond) (key : String) : String :=
  match lookupJ m key with
  | some (.s v) => v
  | _ => ""

/-- Read the boolean `meta.get("deprecated", False)`. -/
def metaGetB (m : Cond) (key : String) : Bool :=
  match lookupJ m key with
  | some (.b v) => v
  | _ => false

/-- Python `doc_text.split("\n\n", 1)`: split at the first occurrence of
the separator, `none` when it does not occur. -/
def splitFirstSep : List Char → Option (List Char × List Char)
  | [] => none
  | '\n' :: '\n' :: rest => some ([], rest)
  | c :: rest => (splitFirstSep rest).map fun p => (c :: p.1, p.2)

/-- The conversion loop of `_chroma_to_results`: walk the four parallel
lists (Python `zip` stops at the shortest), turn cosine distance into
the similarity `1 - dist`, split the stored document into title and
body, and attach ranks from `enumerate(..., start=1)`. -/
def chromaGo (rank : Nat) : List String → List String → List Cond → List ℚ → List RDoc
  | id0 :: ids, d :: ds, m :: ms, t :: ts =>
    let p := match splitFirstSep d.data with
      | some q => (String.mk q.1, String.mk q.2)
      | none => (d, "")
    ⟨id0, p.1, p.2, metaGetS m "region", metaGetS m "product_version",
      metaGetS m "category", metaGetB m "deprecated", 1 - t, rank⟩ ::
      chromaGo (rank + 1) ids ds ms ts
  | _, _, _, _ => []

/-- Embedding of `_chroma_to_results(query_result)`. -/
def chromaToResults (qr : ChromaQR) : List RDoc :=
  chromaGo 1 qr.ids qr.documents qr.metadatas qr.distances

/-- Embedding of `search_dense(collection, query, top_k, where)`: build
the kwargs (the `where` key is only set when the clause is truthy), call
the port, and on failure retry exactly once without the filter when one
was present, else re-raise. -/
def search_dense (port : Nat → Option Cond → Except PErr ChromaQR)
    (top_k : Nat) (w : Option Cond) : Except PErr (List RDoc) :=
  let effW := if condTruthy w then w else none
  match port top_k effW with
  | .ok qr => .ok (chromaToResults qr)
  | .error e =>
    if condTruthy w then Except.map chromaToResults (port top_k none)
    else .error e

/-! ### Hybrid search (`src/retriever.py`, `search_hybrid`) -/

/-- The re-ranking loop `for new_rank, item in
enumerate(sparse_filtered, start=1): item["rank"] = new_rank`. -/
def rerank (l : List BMItem) : List BMItem :=
  (pyEnumerate 1 l).map fun p => { p.2 with rank := p.1 }

/-- The sparse branch of `search_hybrid` (the `if where:` block): with a
truthy filter, fetch `top_k * 10` unfiltered BM25 results, filter them
post hoc, re-rank the survivors from 1, take the first `top_k * 3`, and
fall back to an unfiltered `top_k * 3` query when nothing survived;
without a truthy filter just fetch `top_k * 3`. -/
def sparse_branch (idf : String → ℚ) (docs : List Article) (query : String)
    (top_k : Nat) (w : Option Cond) : Except PErr (List BMItem) :=
  match w with
  | some wc =>
    if wc.isEmpty then pure (bm25Search idf docs query (top_k * 3))
    else do
      let raw := bm25Search idf docs query (top_k * 10)
      let filtered ← apply_filters (fun r => r.doc_id) raw wc (articlesById docs)
      let res := (rerank filtered).take (top_k * 3)
      pure (if res.isEmpty then bm25Search idf docs query (top_k * 3) else res)
  | none => pure (bm25Search idf docs query (top_k * 3))

/-- The enrichment loop of `search_hybrid`: join each sparse row with
its article's display fields (`articles_by_id.get(doc_id, {})`, whose
empty-dict default yields the field defaults). -/
def enrich (docs : List Article) (l : List BMItem) : List RDoc :=
  l.map fun r =>
    match articlesById docs r.doc_id with
    | some a => ⟨r.doc_id, a.title, a.body, a.region, a.product_version,
                 a.category, a.deprecated, r.score, r.rank⟩
    | none => ⟨r.doc_id, "", "", "", "", "", false, r.score, r.rank⟩

/-- The body of `search_hybrid` up to and including fusion: dense branch
(queried once, with the filter), sparse branch, enrichment, RRF. -/
def hybridOnce (port : Nat → Option Cond → Except PErr ChromaQR)
    (idf : String → ℚ) (docs : List Article) (query : String) (top_k : Nat)
    (w : Option Cond) (rrf_k : ℚ) : Except PErr (List RDoc) := do
  let dense ← search_dense port (top_k * 3) w
  let sparseRaw ← sparse_branch idf docs query top_k w
  pure (reciprocal_rank_fusion [dense, enrich docs sparseRaw] rrf_k)

/-- Embedding of `search_hybrid(...)`.  Python re-enters `search_hybrid`
with `where=None` when the fused list is empty under a truthy filter;
that call cannot recurse again (its own filter is `None`), so the single
level of recursion is unrolled here: the retry runs the body once more
without the filter and truncates to `top_k`. -/
def search_hybrid (port : Nat → Option Cond → Except PErr ChromaQR)
    (idf : String → ℚ) (docs : List Article) (query : String) (top_k : Nat)
    (w : Option Cond) (rrf_k : ℚ) : Except PErr (List RDoc) := do
  let fused ← hybridOnce port idf docs query top_k w rrf_k
  if fused.isEmpty && condTruthy w then do
    let fused2 ← hybridOnce port idf docs query top_k none rrf_k
    pure (fused2.take top_k)
  else
    pure (fused.take top_k)

/-! ### Library: facts about `pyEnumerate` and the stable descending sort -/

theorem pyEnumerate_map_snd (start : Nat) (l : List α) :
    (pyEnumerate start l).map (fun p => p.2) = l := by
  induction l generalizing start with
  | nil => rfl
  | cons a l ih => simp [pyEnumerate, ih]

theorem pyEnumerate_map_fst (start : Nat) (l : List α) :
    (pyEnumerate start l).map (fun p => p.1) = List.range' start l.length := by
  induction l generalizing start with
  | nil => rfl
  | cons a l ih => simp [pyEnumerate, ih, List.range'_succ]

theorem pyEnumerate_length (start : Nat) (l : List α) :
    (pyEnumerate start l).length = l.length := by
  induction l generalizing start with
  | nil => rfl
  | cons a l ih => simp [pyEnumerate, ih]

theorem le_fst_of_mem_pyEnumerate {start : Nat} {l : List α} {p : Nat × α}
    (h : p ∈ pyEnumerate start l) : start ≤ p.1 := by
  induction l generalizing start with
  | nil => simp [pyEnumerate] at h
  | cons a l ih =>
    simp only [pyEnumerate, List.mem_cons] at h
    rcases h with h | h
    · subst h
      exact Nat.le_refl _
    · exact Nat.le_of_succ_le (ih h)

theorem pyEnumerate_pairwise_fst (start : Nat) (l : List α) :
    (pyEnumerate start l).Pairwise (fun a b => a.1 < b.1) := by
  induction l generalizing start with
  | nil => exact List.Pairwise.nil
  | cons a l ih =>
    refine List.pairwise_cons.mpr ⟨?_, ih (start + 1)⟩
    intro p hp
    exact Nat.lt_of_succ_le (le_fst_of_mem_pyEnumerate hp)

theorem pyEnumerate_take (start n : Nat) (l : List α) :
    pyEnumerate start (l.take n) = (pyEnumerate start l).take n := by
  induction l generalizing start n with
  | nil => simp [pyEnumerate]
  | cons a l ih =>
    cases n with
    | zero => simp [pyEnumerate]
    | succ m => simp [pyEnumerate, ih]

/-- Strict order "row `a` must come before row `b`" on index-annotated
rows: a strictly larger key, or an equal key and an earlier original
position.  This is the descending-score order with the stability
tie-break. -/
def lexAfter (key : α → ℚ) (a b : Nat × α) : Prop :=
  key b.2 < key a.2 ∨ (key a.2 = key b.2 ∧ a.1 < b.1)

theorem orderedInsert_pairwise_lexAfter {key : α → ℚ} {x : Nat × α}
    {m : List (Nat × α)} (hm : m.Pairwise (lexAfter key))
    (hx : ∀ b ∈ m, x.1 < b.1) :
    (List.orderedInsert (fun a b : Nat × α => key b.2 ≤ key a.2) x m).Pairwise
      (lexAfter key) := by
  induction m with
  | nil => simp [List.orderedInsert, lexAfter]
  | cons b bs ih =>
    by_cases h : key b.2 ≤ key x.2
    · simp only [List.orderedInsert, if_pos h]
      refine List.pairwise_cons.mpr ⟨?_, hm⟩
      intro c hc
      rcases List.mem_cons.mp hc with hc | hc
      · subst hc
        rcases lt_or_eq_of_le h with hlt | heq
        · exact Or.inl hlt
        · exact Or.inr ⟨heq.symm, hx c (List.mem_cons_self c bs)⟩
      · have hbc := List.rel_of_pairwise_cons hm hc
        rcases hbc with hlt | ⟨heq, _⟩
        · exact Or.inl (lt_of_lt_of_le hlt h)
        · rcases lt_or_eq_of_le (heq ▸ h) with hlt | heq2
          · exact Or.inl hlt
          · exact Or.inr ⟨heq2.symm, hx c (List.mem_cons_of_mem b hc)⟩
    · simp only [List.orderedInsert, if_neg h]
      have hxb : key x.2 < key b.2 := lt_of_not_le h
      refine List.pairwise_cons.mpr ⟨?_, ?_⟩
      · intro c hc
        rcases (List.mem_orderedInsert _).mp hc with hc | hc
        · subst hc
          exact Or.inl hxb
        · exact List.rel_of_pairwise_cons hm hc
      · exact ih hm.of_cons (fun c hc => hx c (List.mem_cons_of_mem b hc))

theorem insertionSort_pairwise_lexAfter (key : α → ℚ) (l : List (Nat × α))
    (hl : l.Pairwise (fun a b => a.1 < b.1)) :
    (List.insertionSort (fun a b : Nat × α => key b.2 ≤ key a.2) l).Pairwise
      (lexAfter key) := by
  induction l with
  | nil => exact List.Pairwise.nil
  | cons a l ih =>
    simp only [List.insertionSort]
    refine orderedInsert_pairwise_lexAfter (ih hl.of_cons) ?_
    intro b hb
    have hb2 := (List.mem_insertionSort _).mp hb
    exact List.rel_of_pairwise_cons hl hb2

/-- Characterisation of the stable descending sort: its output is the
second components of some permutation of the index-annotated input that
is strictly ordered by descending key with index (input position) as the
tie-break. -/
theorem pySortDescBy_characterization (key : α → ℚ) (l : List α) :
    ∃ p : List (Nat × α),
      p.Perm (pyEnumerate 0 l) ∧
      pySortDescBy key l = p.map (fun q => q.2) ∧
      p.Pairwise (lexAfter key) := by
  refine ⟨List.insertionSort (fun a b : Nat × α => key b.2 ≤ key a.2)
    (pyEnumerate 0 l), List.perm_insertionSort _ _, ?_, ?_⟩
  · have h := List.map_insertionSort (fun a b : Nat × α => key b.2 ≤ key a.2)
      (fun a b : α => key b ≤ key a) (fun p => p.2) (pyEnumerate 0 l)
      (fun a _ b _ => Iff.rfl)
    rw [h, pyEnumerate_map_snd]
    rfl
  · exact insertionSort_pairwise_lexAfter key _ (pyEnumerate_pairwise_fst 0 l)

/-- A stable sort leaves a list of all-equal keys untouched. -/
theorem pySortDescBy_of_const_key {key : α → ℚ} {l : List α}
    (h : ∀ a ∈ l, key a = 0) : pySortDescBy key l = l := by
  refine List.Sorted.insertionSort_eq ?_
  refine List.pairwise_of_forall_mem_list ?_
  intro a ha b hb
  rw [h a ha, h b hb]

theorem length_pySortDescBy (key : α → ℚ) (l : List α) :
    (pySortDescBy key l).length = l.length :=
  List.length_insertionSort _ l

/-! ### Tokenizer specification and its equivalence with the scanner -/

/-- Strip leading and trailing hyphens off a run (the spec's tokens
contain hyphens only internally). -/
def trimHyphens (l : List Char) : List Char :=
  dropTrailingHyphens (l.dropWhile (fun c => c == '-'))

/-- Maximal runs of token characters, in order; written from the spec's
"maximal runs" wording. -/
def tokenRuns : List Char → List (List Char)
  | [] => []
  | c :: cs =>
    if isTokChar c then (c :: cs.takeWhile isTokChar) :: tokenRuns (cs.dropWhile isTokChar)
    else tokenRuns cs
termination_by l => l.length
decreasing_by
  · have := List.Sublist.length_le (List.dropWhile_sublist (l := cs) (p := isTokChar))
    simp
    omega
  · simp

/-- The spec's tokenizer, following 4.1 word for word: lowercase the
input, split it into maximal runs of alphanumeric-or-hyphen characters,
keep each run's alphanumeric core (hyphens only internally), and drop
runs with no alphanumeric character.  No stemming and no stop-word
removal appear anywhere. -/
def specTokenize (s : String) : List String :=
  (((tokenRuns (s.data.map Char.toLower)).map trimHyphens).filter
    (fun t => !t.isEmpty)).map (fun t => String.mk t)

theorem isAlnum_false_of_hyphen {c : Char} (h : (c == '-') = true) :
    isAlnum c = false := by
  rw [beq_iff_eq] at h
  subst h
  decide

theorem isTokChar_of_isAlnum {c : Char} (h : isAlnum c = true) :
    isTokChar c = true := by
  simp [isTokChar, h]

theorem hyphen_of_tok_not_alnum {c : Char} (ht : isTokChar c = true)
    (ha : isAlnum c = false) : (c == '-') = true := by
  simpa [isTokChar, ha] using ht

theorem dropTrailingHyphens_decomp (run : List Char) :
    ∃ hs, run = dropTrailingHyphens run ++ hs ∧ ∀ x ∈ hs, (x == '-') = true := by
  refine ⟨(run.reverse.takeWhile (fun c => c == '-')).reverse, ?_, ?_⟩
  · unfold dropTrailingHyphens
    rw [← List.reverse_append, List.takeWhile_append_dropWhile, List.reverse_reverse]
  · intro x hx
    rw [List.mem_reverse] at hx
    exact List.mem_takeWhile_imp (p := fun c => c == '-') hx

theorem findTokens_hyphens_prefix {hs rest : List Char}
    (h : ∀ x ∈ hs, (x == '-') = true) :
    findTokens (hs ++ rest) = findTokens rest := by
  induction hs with
  | nil => rfl
  | cons x hs ih =>
    have hx : isAlnum x = false := isAlnum_false_of_hyphen (h x (List.mem_cons_self x hs))
    rw [List.cons_append, findTokens]
    simp only [hx]
    exact ih (fun y hy => h y (List.mem_cons_of_mem x hy))

theorem trimHyphens_cons_hyphen {c : Char} (t : List Char) (h : (c == '-') = true) :
    trimHyphens (c :: t) = trimHyphens t := by
  unfold trimHyphens
  rw [List.dropWhile_cons]
  simp [h]

theorem trimHyphens_cons_alnum {c : Char} (t : List Char) (h : isAlnum c = true) :
    trimHyphens (c :: t) = dropTrailingHyphens (c :: t) := by
  unfold trimHyphens
  rw [List.dropWhile_cons]
  simp [isAlnum_ne_hyphen h]

/-- A leading hyphen changes no token: it is absorbed into the first run
and trimmed away, or forms a run with no alphanumeric core. -/
theorem pipeline_hyphen_cons {c : Char} (cs : List Char) (h : (c == '-') = true) :
    ((tokenRuns (c :: cs)).map trimHyphens).filter (fun t => !t.isEmpty)
      = ((tokenRuns cs).map trimHyphens).filter (fun t => !t.isEmpty) := by
  have htc : isTokChar c = true := by simp [isTokChar, h]
  cases cs with
  | nil =>
    have h1 : trimHyphens [c] = [] := by
      rw [trimHyphens_cons_hyphen [] h]
      rfl
    simp [tokenRuns, htc, h1]
  | cons d ds =>
    by_cases hd : isTokChar d = true
    · rw [tokenRuns, if_pos htc, List.takeWhile_cons_of_pos hd,
        List.dropWhile_cons_of_pos hd]
      rw [show tokenRuns (d :: ds)
            = (d :: ds.takeWhile isTokChar) :: tokenRuns (ds.dropWhile isTokChar) by
          rw [tokenRuns, if_pos hd]]
      simp only [List.map_cons, List.filter_cons,
        trimHyphens_cons_hyphen (d :: ds.takeWhile isTokChar) h]
    · rw [tokenRuns, if_pos htc, List.takeWhile_cons_of_neg hd,
        List.dropWhile_cons_of_neg hd]
      have : trimHyphens [c] = [] := by
        rw [trimHyphens_cons_hyphen [] h]
        rfl
      simp [this]

theorem drop_token_eq {l run rest tok hs : List Char}
    (hl : l = run ++ rest) (hrun : run = tok ++ hs) :
    l.drop tok.length = hs ++ rest := by
  subst hl
  subst hrun
  rw [List.append_assoc]
  exact List.drop_left _ _

/-- The scanner of `re.findall` computes exactly the spec's pipeline:
maximal runs, trimmed of edge hyphens, empty cores dropped. -/
theorem findTokens_eq_pipeline : ∀ (n : Nat) (l : List Char), l.length ≤ n →
    findTokens l = ((tokenRuns l).map trimHyphens).filter (fun t => !t.isEmpty) := by
  intro n
  induction n with
  | zero =>
    intro l hl
    have h0 : l = [] := List.length_eq_zero.mp (Nat.le_zero.mp hl)
    subst h0
    simp [findTokens, tokenRuns]
  | succ n ih =>
    intro l hl
    match l with
    | [] => simp [findTokens, tokenRuns]
    | c :: cs =>
      have hcs : cs.length ≤ n := by
        simp only [List.length_cons] at hl
        omega
      by_cases hc : isAlnum c = true
      · -- a match starts here
        have htc : isTokChar c = true := isTokChar_of_isAlnum hc
        have htw : (c :: cs).takeWhile isTokChar = c :: cs.takeWhile isTokChar :=
          List.takeWhile_cons_of_pos htc
        obtain ⟨hs, hrun, hhs⟩ :=
          dropTrailingHyphens_decomp ((c :: cs).takeWhile isTokChar)
        have hsplit : (c :: cs)
            = (c :: cs).takeWhile isTokChar ++ cs.dropWhile isTokChar := by
          rw [htw, List.cons_append, List.takeWhile_append_dropWhile]
        have hrest : (cs.dropWhile isTokChar).length ≤ n :=
          le_trans (List.Sublist.length_le (List.dropWhile_sublist isTokChar)) hcs
        have hne : dropTrailingHyphens ((c :: cs).takeWhile isTokChar) ≠ [] := by
          rw [htw]
          exact dropTrailingHyphens_cons_ne_nil _ (isAlnum_ne_hyphen hc)
        rw [findTokens, dif_pos hc]
        rw [drop_token_eq hsplit hrun, findTokens_hyphens_prefix hhs]
        rw [tokenRuns, if_pos htc]
        have htrim : trimHyphens (c :: cs.takeWhile isTokChar)
            = dropTrailingHyphens ((c :: cs).takeWhile isTokChar) := by
          rw [trimHyphens_cons_alnum _ hc, htw]
        rw [List.map_cons, List.filter_cons, htrim]
        have hkeep : (!(dropTrailingHyphens ((c :: cs).takeWhile isTokChar)).isEmpty)
            = true := by
          simp [List.isEmpty_iff, hne]
        rw [if_pos hkeep, ih _ hrest]
      · -- no match starts here: the scanner skips one character
        have hfind : findTokens (c :: cs) = findTokens cs := by
          rw [findTokens, dif_neg hc]
        rw [hfind, ih cs hcs]
        by_cases htc : isTokChar c = true
        · have hhy : (c == '-') = true :=
            hyphen_of_tok_not_alnum htc (by simpa using hc)
          rw [pipeline_hyphen_cons cs hhy]
        · rw [tokenRuns, if_neg htc]

/-! ### Sample data used by concrete witnesses -/

/-- A sample EU article. -/
def artA : Article :=
  ⟨"A1", "Auth setup", "How to configure login.", "EU", "v3.0",
    "authentication", false, "2024-01-01", ["E-4012", "E-5001"]⟩

/-- A sample US article. -/
def artB : Article :=
  ⟨"B2", "Billing guide", "How invoices work.", "US", "v1.0",
    "billing", true, "2023-05-02", []⟩

/-- A sample BM25 result row for `artA`. -/
def bmA : BMItem := ⟨"A1", 0, 1⟩

/-- A sample BM25 result row for `artB`. -/
def bmB : BMItem := ⟨"B2", 0, 2⟩

/-! ### Claim C7 -/

/-- C7: `tokenize` lowercases its entire input and extracts maximal runs
of alphanumeric characters that may contain internal (non-leading,
non-trailing) hyphens as single tokens, with no stemming and no
stop-word removal (first conjunct: the scanner equals the spec's
maximal-run pipeline `specTokenize` on every input; purity and
determinism hold by construction, both sides being functions of the
input alone); in particular
`tokenize "Error E-4012, retry!" = ["error", "e-4012", "retry"]`. -/
theorem tokenize_matches_spec_and_example :
    (∀ s : String, tokenize s = specTokenize s) ∧
    tokenize "Error E-4012, retry!" = ["error", "e-4012", "retry"] := by
  constructor
  · intro s
    unfold tokenize specTokenize
    rw [findTokens_eq_pipeline (s.data.map Char.toLower).length _ (le_refl _)]
  · simp [tokenize, findTokens, dropTrailingHyphens, isAlnum, isTokChar]

/-! ### Claim C6 -/

/-- C6 (code evidence): the spec demands a distinct MalformedPredicate
error when a predicate references an unrecognized field or operator,
but `_evaluate_condition` raises nothing in either case: an
unrecognized operator (here `$contains`) falls through every recognised
branch, so the constraint silently holds and a `US` document passes an
`EU` filter; an unrecognized field (here `zone`) is evaluated against
the absent value, so the condition is silently false.  Both evaluations
return an ordinary boolean, not an error. -/
theorem evalCond_silent_on_unrecognized :
    evalCond (flattenMeta artB) [("region", .obj [("$contains", .s "EU")])] = .ok true ∧
    evalCond (flattenMeta artB) [("zone", .obj [("$eq", .s "US")])] = .ok false := by
  constructor
  · simp [evalCond, lookupJ, evalFields, evalOps, flattenMeta, artB,
      pyEqOpt, jEq, Bind.bind, Except.bind, pure, Except.pure]
  · simp [evalCond, lookupJ, evalFields, evalOps, flattenMeta, artB,
      pyEqOpt, jEq, Bind.bind, Except.bind, pure, Except.pure]

/-! ### Claim C8 -/

/-- C8 counterexample: the flattened metadata record has no field named
`error_codes`; the comma-joined string is stored under `error_codes_str`
instead, so a leaf condition on the field `error_codes` compares the
absent value (never the comma-joined string) and fails even when its
target is exactly the comma-joined string of the document's codes. -/
theorem error_codes_key_absent :
    lookupJ (flattenMeta artA) "error_codes" = none ∧
    String.intercalate "," artA.error_codes = "E-4012,E-5001" ∧
    evalCond (flattenMeta artA)
      [("error_codes", .obj [("$eq", .s "E-4012,E-5001")])] = .ok false := by
  refine ⟨by simp [flattenMeta, lookupJ], by decide, ?_⟩
  simp [evalCond, lookupJ, evalFields, evalOps, flattenMeta, artA,
    pyEqOpt, jEq, Bind.bind, Except.bind, pure, Except.pure]

/-- C8 (amended): for every document, the flattened metadata record
exposes the field `error_codes_str` (not `error_codes`) as the literal
comma-joined string of the document's error codes, so that a predicate
leaf condition on the field `error_codes_str` is evaluated against that
comma-joined string (its operator map runs against exactly that string
value; e.g. an `$eq` leaf decides equality with it). -/
theorem error_codes_str_exposed (a : Article) :
    lookupJ (flattenMeta a) "error_codes_str"
      = some (.s (String.intercalate "," a.error_codes)) ∧
    lookupJ (flattenMeta a) "error_codes" = none ∧
    (∀ ops : List (String × J),
      evalCond (flattenMeta a) [("error_codes_str", .obj ops)]
        = (evalOps (some (.s (String.intercalate "," a.error_codes))) ops).bind
            (fun c => if c then .ok true else .ok false)) ∧
    (∀ t : String,
      evalCond (flattenMeta a) [("error_codes_str", .obj [("$eq", .s t)])]
        = .ok (String.intercalate "," a.error_codes == t)) := by
  have hlook : lookupJ (flattenMeta a) "error_codes_str"
      = some (.s (String.intercalate "," a.error_codes)) := by
    simp [flattenMeta, lookupJ]
  have hops : ∀ ops : List (String × J),
      evalCond (flattenMeta a) [("error_codes_str", .obj ops)]
        = (evalOps (some (.s (String.intercalate "," a.error_codes))) ops).bind
            (fun c => if c then .ok true else .ok false) := by
    intro ops
    rw [evalCond]
    simp only [lookupJ, show (("error_codes_str" : String) == "$and") = false from rfl,
      show (("error_codes_str" : String) == "$or") = false from rfl]
    rw [evalFields, hlook]
    rcases h : evalOps (some (.s (String.intercalate "," a.error_codes))) ops with e | c
    · simp [Bind.bind, Except.bind]
    · rcases c with _ | _
      all_goals simp [Bind.bind, Except.bind, evalFields, pure, Except.pure]
  refine ⟨hlook, by simp [flattenMeta, lookupJ], hops, ?_⟩
  intro t
  rw [hops [("$eq", .s t)]]
  rcases h : (String.intercalate "," a.error_codes == t) with _ | _
  · simp [evalOps, pyEqOpt, jEq, h, Bind.bind, Except.bind]
  · simp [evalOps, pyEqOpt, jEq, h, Bind.bind, Except.bind, pure, Except.pure]

/-! ### Claim C10 -/

/-- Decision of "this result's document satisfies the where-clause":
its `doc_id` maps to an article whose flattened metadata makes the
evaluator return `ok true` (an absent article never satisfies it). -/
def matchesFilter (articlesBy : String → Option Article) (w : Cond)
    (docId : String) : Bool :=
  match articlesBy docId with
  | some a =>
    match evalCond (flattenMeta a) w with
    | .ok true => true
    | _ => false
  | none => false

theorem applyFiltersGo_cons_none {docIdOf : α → String} {w : Cond}
    {articlesBy : String → Option Article} {r : α} {rs : List α}
    (ha : articlesBy (docIdOf r) = none) :
    applyFiltersGo docIdOf w articlesBy (r :: rs)
      = applyFiltersGo docIdOf w articlesBy rs := by
  rw [applyFiltersGo, ha]

theorem applyFiltersGo_cons_some {docIdOf : α → String} {w : Cond}
    {articlesBy : String → Option Article} {r : α} {rs : List α} {a : Article}
    (ha : articlesBy (docIdOf r) = some a) :
    applyFiltersGo docIdOf w articlesBy (r :: rs) = (do
      let c ← evalCond (flattenMeta a) w
      let rest ← applyFiltersGo docIdOf w articlesBy rs
      pure (if c then r :: rest else rest)) := by
  rw [applyFiltersGo, ha]

theorem applyFiltersGo_filter {docIdOf : α → String} {w : Cond}
    {articlesBy : String → Option Article} :
    ∀ {results : List α} {out : List α},
      applyFiltersGo docIdOf w articlesBy results = .ok out →
      out = results.filter (fun r => matchesFilter articlesBy w (docIdOf r)) := by
  intro results
  induction results with
  | nil =>
    intro out h
    simp [applyFiltersGo] at h
    subst h
    rfl
  | cons r rs ih =>
    intro out h
    rcases ha : articlesBy (docIdOf r) with _ | a
    · rw [applyFiltersGo_cons_none ha] at h
      rw [List.filter_cons, if_neg (by simp [matchesFilter, ha])]
      exact ih h
    · rw [applyFiltersGo_cons_some ha] at h
      rcases hc : evalCond (flattenMeta a) w with e | c
      · rw [hc] at h
        simp [Bind.bind, Except.bind] at h
      · rw [hc] at h
        rcases hrest : applyFiltersGo docIdOf w articlesBy rs with e | rest
        · rw [hrest] at h
          simp [Bind.bind, Except.bind] at h
        · rw [hrest] at h
          simp only [Bind.bind, Except.bind, pure, Except.pure,
            Except.ok.injEq] at h
          cases c with
          | true =>
            simp only [if_pos] at h
            subst h
            rw [List.filter_cons, if_pos (by simp [matchesFilter, ha, hc])]
            rw [ih hrest]
          | false =>
            simp only [Bool.false_eq_true, if_false] at h
            subst h
            rw [List.filter_cons, if_neg (by simp [matchesFilter, ha, hc])]
            exact ih hrest

/-- C10: `apply_filters` returns an order-preserving subsequence of its
input with every returned item unmodified: with a non-empty
where-clause the output is exactly the input items whose `doc_id` maps
to an article whose flattened metadata satisfies the clause (items with
an unmapped `doc_id` are dropped), and an empty where-clause returns the
input unchanged. -/
theorem apply_filters_frame (docIdOf : α → String) (results : List α)
    (w : Cond) (articlesBy : String → Option Article) :
    (w = [] → apply_filters docIdOf results w articlesBy = .ok results) ∧
    (∀ out, apply_filters docIdOf results w articlesBy = .ok out →
      out.Sublist results) ∧
    (∀ out, w ≠ [] → apply_filters docIdOf results w articlesBy = .ok out →
      out = results.filter (fun r => matchesFilter articlesBy w (docIdOf r))) := by
  have hnonempty : ∀ out, w ≠ [] →
      apply_filters docIdOf results w articlesBy = .ok out →
      out = results.filter (fun r => matchesFilter articlesBy w (docIdOf r)) := by
    intro out hw h
    rw [apply_filters, if_neg (by simpa [List.isEmpty_iff] using hw)] at h
    exact applyFiltersGo_filter h
  refine ⟨?_, ?_, hnonempty⟩
  · intro hw
    subst hw
    simp [apply_filters]
  · intro out h
    by_cases hw : w = []
    · subst hw
      rw [apply_filters] at h
      simp at h
      rw [← h]
    · rw [hnonempty out hw h]
      exact List.filter_sublist _

/-- Witness for C10 at a concrete input: filtering two BM25 rows against
`region $eq EU` over the two sample articles keeps exactly the EU row,
an order-preserving subsequence. -/
theorem apply_filters_frame_witness :
    [bmA] = [bmA, bmB].filter
      (fun r => matchesFilter (articlesById [artA, artB])
        [("region", J.obj [("$eq", J.s "EU")])] r.doc_id) ∧
    List.Sublist [bmA] [bmA, bmB] := by
  have hev : apply_filters (fun r : BMItem => r.doc_id) [bmA, bmB]
      [("region", J.obj [("$eq", J.s "EU")])] (articlesById [artA, artB])
        = .ok [bmA] := by
    simp [apply_filters, applyFiltersGo, articlesById, artA, artB, bmA, bmB,
      evalCond, lookupJ, evalFields, evalOps, flattenMeta, pyEqOpt, jEq,
      Bind.bind, Except.bind, pure, Except.pure, List.find?]
  have h := apply_filters_frame (fun r : BMItem => r.doc_id) [bmA, bmB]
    [("region", J.obj [("$eq", J.s "EU")])] (articlesById [artA, artB])
  exact ⟨h.2.2 [bmA] (by simp) hev, h.2.1 [bmA] hev⟩

/-! ### Claim C1 -/

theorem get_scores_length (idf : String → ℚ) (corpus : List (List String))
    (query : List String) : (get_scores idf corpus query).length = corpus.length := by
  simp [get_scores]

theorem corpusTokens_length (docs : List Article) :
    (corpusTokens docs).length = docs.length := by
  simp [corpusTokens]

theorem bm25_sorted_length (idf : String → ℚ) (docs : List Article) (query : String) :
    (pySortDescBy (fun p => p.2)
      ((docs.map fun d => d.doc_id).zip
        (get_scores idf (corpusTokens docs) (tokenize query)))).length
      = docs.length := by
  rw [length_pySortDescBy, List.length_zip, List.length_map,
    get_scores_length, corpusTokens_length, min_self]

theorem bm25Search_length (idf : String → ℚ) (docs : List Article) (query : String)
    (top_k : Nat) : (bm25Search idf docs query top_k).length = min top_k docs.length := by
  rw [bm25Search]
  rw [List.length_map, pyEnumerate_length, List.length_take, bm25_sorted_length]

theorem bm25Search_map_rank (idf : String → ℚ) (docs : List Article) (query : String)
    (top_k : Nat) :
    (bm25Search idf docs query top_k).map (fun r => r.rank)
      = List.range' 1 (min top_k docs.length) := by
  rw [bm25Search]
  rw [List.map_map]
  have h1 : ((fun r : BMItem => r.rank) ∘ fun p : Nat × (String × ℚ) => (⟨p.2.1, p.2.2, p.1⟩ : BMItem))
      = fun p : Nat × (String × ℚ) => p.1 := rfl
  rw [h1, pyEnumerate_map_fst, List.length_take, bm25_sorted_length]

theorem bm25Search_take (idf : String → ℚ) (docs : List Article) (query : String)
    (top_k : Nat) :
    bm25Search idf docs query top_k = (bm25Search idf docs query docs.length).take top_k := by
  rw [bm25Search, bm25Search]
  rw [List.take_of_length_le (le_of_eq (bm25_sorted_length idf docs query))]
  rw [← List.map_take, ← pyEnumerate_take]

/-- C1: `BM25Index.search` scores every document (one score per corpus
entry, zero scores staying eligible), sorts descending by BM25 score
with ties broken by original corpus insertion order (the sixth conjunct:
the full ranking is a permutation of the position-annotated corpus that
is `lexAfter`-ordered — strictly decreasing score, equal scores by
insertion position), returns the first `top_k` with ranks `1..top_k`
(truncation of the full ranking; the whole ranked corpus when `top_k`
exceeds the corpus size), and for an empty tokenized query every score
is zero and the output order is exactly insertion order.  The BM25
score itself is `get_scores`, modelled from the spec over an abstract
`idf`; every conjunct holds for every `idf`. -/
theorem bm25_search_spec (idf : String → ℚ) (docs : List Article)
    (query : String) (top_k : Nat) :
    (get_scores idf (corpusTokens docs) (tokenize query)).length = docs.length ∧
    (bm25Search idf docs query top_k).length = min top_k docs.length ∧
    (bm25Search idf docs query top_k).map (fun r => r.rank)
      = List.range' 1 (min top_k docs.length) ∧
    bm25Search idf docs query top_k
      = (bm25Search idf docs query docs.length).take top_k ∧
    (docs.length ≤ top_k →
      bm25Search idf docs query top_k = bm25Search idf docs query docs.length) ∧
    (∃ p : List (Nat × (String × ℚ)),
      p.Perm (pyEnumerate 0 ((docs.map fun d => d.doc_id).zip
        (get_scores idf (corpusTokens docs) (tokenize query)))) ∧
      (bm25Search idf docs query docs.length).map (fun r => (r.doc_id, r.score))
        = p.map (fun q => q.2) ∧
      p.Pairwise (lexAfter (fun q : String × ℚ => q.2))) ∧
    (tokenize query = [] →
      (∀ s ∈ get_scores idf (corpusTokens docs) (tokenize query), s = 0) ∧
      (bm25Search idf docs query top_k).map (fun r => r.doc_id)
        = (docs.map fun d => d.doc_id).take top_k) := by
  refine ⟨by rw [get_scores_length, corpusTokens_length],
    bm25Search_length idf docs query top_k,
    bm25Search_map_rank idf docs query top_k,
    bm25Search_take idf docs query top_k, ?_, ?_, ?_⟩
  · intro hle
    rw [bm25Search_take idf docs query top_k]
    exact List.take_of_length_le
      (by rw [bm25Search_length, min_self]; exact hle)
  · obtain ⟨p, hperm, heq, hpw⟩ := pySortDescBy_characterization
      (fun q : String × ℚ => q.2)
      ((docs.map fun d => d.doc_id).zip
        (get_scores idf (corpusTokens docs) (tokenize query)))
    refine ⟨p, hperm, ?_, hpw⟩
    rw [bm25Search]
    rw [List.take_of_length_le (le_of_eq (bm25_sorted_length idf docs query))]
    rw [List.map_map]
    have h1 : ((fun r : BMItem => (r.doc_id, r.score))
        ∘ fun p : Nat × (String × ℚ) => (⟨p.2.1, p.2.2, p.1⟩ : BMItem))
        = fun p : Nat × (String × ℚ) => p.2 := rfl
    rw [h1, pyEnumerate_map_snd, heq]
  · intro hq
    have hzero : get_scores idf (corpusTokens docs) []
        = List.replicate (corpusTokens docs).length 0 := by
      simp [get_scores]
    have hz : ∀ s ∈ get_scores idf (corpusTokens docs) (tokenize query), s = 0 := by
      intro s hs
      rw [hq, hzero] at hs
      exact List.eq_of_mem_replicate hs
    refine ⟨hz, ?_⟩
    have hconst : pySortDescBy (fun p : String × ℚ => p.2)
        ((docs.map fun d => d.doc_id).zip
          (get_scores idf (corpusTokens docs) (tokenize query)))
        = (docs.map fun d => d.doc_id).zip
            (get_scores idf (corpusTokens docs) (tokenize query)) := by
      refine pySortDescBy_of_const_key ?_
      intro a ha
      exact hz a.2 (List.mem_zip ha).2
    have hlens : (docs.map fun d => d.doc_id).length
        ≤ (get_scores idf (corpusTokens docs) (tokenize query)).length := by
      rw [List.length_map, get_scores_length, corpusTokens_length]
    rw [bm25Search, hconst]
    rw [List.map_map]
    have h1 : ((fun r : BMItem => r.doc_id)
        ∘ fun p : Nat × (String × ℚ) => (⟨p.2.1, p.2.2, p.1⟩ : BMItem))
        = Prod.fst ∘ (fun p : Nat × (String × ℚ) => p.2) := rfl
    rw [h1, ← List.map_map, pyEnumerate_map_snd, List.map_take,
      List.map_fst_zip _ _ hlens]

/-- Witness for C1 at a concrete input: two articles, an all-zero `idf`,
a query with no token characters (so the tokenized query is empty) and
`top_k = 5` beyond the corpus size; the ranking is insertion order. -/
theorem bm25_search_spec_witness :
    tokenize "!!!" = [] ∧
    (bm25Search (fun _ => 0) [artA, artB] "!!!" 5).map (fun r => r.doc_id)
      = ["A1", "B2"] := by
  have hq : tokenize "!!!" = ([] : List String) := by
    simp [tokenize, findTokens, isAlnum]
  have h := (bm25_search_spec (fun _ => 0) [artA, artB] "!!!" 5).2.2.2.2.2.2 hq
  refine ⟨hq, ?_⟩
  rw [h.2]
  simp [artA, artB]

/-! ### Claim C2: facts about the RRF score accumulation -/

/-- First-match lookup in the `scores` association list. -/
def lookupQ : List (String × ℚ) → String → Option ℚ
  | [], _ => none
  | p :: rest, key => if p.1 == key then some p.2 else lookupQ rest key

/-- Python's `scores.get(d, 0.0)`. -/
def getScoreD (m : List (String × ℚ)) (d : String) : ℚ := (lookupQ m d).getD 0

/-- Key insertion as Python dicts do it: an existing key stays put, a
new key goes to the end of the iteration order. -/
def insKey (ks : List String) (x : String) : List String :=
  if x ∈ ks then ks else ks ++ [x]

theorem getScoreD_rrfAdd_self (m : List (String × ℚ)) (key : String) (v : ℚ) :
    getScoreD (rrfAdd key v m) key = getScoreD m key + v := by
  induction m with
  | nil => simp [rrfAdd, getScoreD, lookupQ]
  | cons p rest ih =>
    by_cases h : p.1 == key
    · simp [rrfAdd, h, getScoreD, lookupQ]
    · simp only [rrfAdd, h, if_false, Bool.false_eq_true]
      simpa [getScoreD, lookupQ, h] using ih

theorem lookupQ_rrfAdd_other (m : List (String × ℚ)) (key d : String) (v : ℚ)
    (hne : (d == key) = false) : lookupQ (rrfAdd key v m) d = lookupQ m d := by
  induction m with
  | nil =>
    have hkd : ¬ (key == d) = true := by
      intro hc
      rw [beq_iff_eq] at hc
      subst hc
      simp at hne
    simp [rrfAdd, lookupQ, hkd]
  | cons p rest ih =>
    by_cases h : p.1 == key
    · have hpd : (p.1 == d) = false := by
        rw [beq_iff_eq] at h
        subst h
        cases hpd : p.1 == d
        · rfl
        · rw [beq_iff_eq] at hpd
          subst hpd
          simp at hne
      simp [rrfAdd, h, lookupQ, hpd]
    · by_cases hpd : p.1 == d
      · simp [rrfAdd, h, lookupQ, hpd]
      · simp only [rrfAdd, h, if_false, Bool.false_eq_true]
        simpa [lookupQ, hpd] using ih

theorem rrfAdd_map_fst (m : List (String × ℚ)) (key : String) (v : ℚ) :
    (rrfAdd key v m).map (fun p => p.1) = insKey (m.map (fun p => p.1)) key := by
  induction m with
  | nil => simp [rrfAdd, insKey]
  | cons p rest ih =>
    by_cases h : p.1 == key
    · rw [beq_iff_eq] at h
      simp [rrfAdd, h, insKey]
    · have hne : ¬ p.1 = key := by simpa using h
      simp only [rrfAdd, h, if_false, Bool.false_eq_true, List.map_cons, ih, insKey]
      by_cases hk : key ∈ rest.map (fun p => p.1)
      · simp [hk, hne, Ne.symm hne]
      · simp [hk, hne, Ne.symm hne]

theorem dataAdd_map_fst (m : List (String × DocData)) (key : String) (d : DocData) :
    (dataAdd key d m).map (fun p => p.1) = insKey (m.map (fun p => p.1)) key := by
  induction m with
  | nil => simp [dataAdd, insKey]
  | cons p rest ih =>
    by_cases h : p.1 == key
    · rw [beq_iff_eq] at h
      simp [dataAdd, h, insKey]
    · have hne : ¬ p.1 = key := by simpa using h
      simp only [dataAdd, h, if_false, Bool.false_eq_true, List.map_cons, ih, insKey]
      by_cases hk : key ∈ rest.map (fun p => p.1)
      · simp [hk, hne, Ne.symm hne]
      · simp [hk, hne, Ne.symm hne]

theorem lookupQ_of_mem_nodup {m : List (String × ℚ)}
    (hnd : (m.map (fun p => p.1)).Nodup) {q : String × ℚ} (hq : q ∈ m) :
    lookupQ m q.1 = some q.2 := by
  induction m with
  | nil => simp at hq
  | cons p rest ih =>
    rcases List.mem_cons.mp hq with h | h
    · subst h
      simp [lookupQ]
    · have hp1 : (p.1 == q.1) = false := by
        have : q.1 ∈ rest.map (fun p => p.1) := List.mem_map_of_mem _ h
        have hne : p.1 ≠ q.1 := by
          intro hc
          rw [List.map_cons, List.nodup_cons] at hnd
          exact hnd.1 (hc ▸ this)
        simpa using hne
      rw [lookupQ, if_neg (by simp [hp1] : ¬ (p.1 == q.1) = true)]
      exact ih (by rw [List.map_cons, List.nodup_cons] at hnd; exact hnd.2) h

theorem rrf_fold_scores (k : ℚ) :
    ∀ (entries : List RDoc) (st : List (String × ℚ) × List (String × DocData))
      (d : String),
      getScoreD ((entries.foldl (rrfStep k) st).1) d
        = getScoreD st.1 d
          + ((entries.filter (fun r => r.doc_id == d)).map
              (fun r => 1 / (k + (r.rank : ℚ)))).sum := by
  intro entries
  induction entries with
  | nil =>
    intro st d
    simp
  | cons r es ih =>
    intro st d
    rw [List.foldl_cons, ih]
    by_cases h : (r.doc_id == d) = true
    · have h2 : getScoreD ((rrfStep k st r).1) d
          = getScoreD st.1 d + 1 / (k + (r.rank : ℚ)) := by
        rw [beq_iff_eq] at h
        subst h
        exact getScoreD_rrfAdd_self st.1 r.doc_id _
      rw [h2, List.filter_cons, if_pos h, List.map_cons, List.sum_cons]
      ring
    · have hdk : (d == r.doc_id) = false := by
        cases hc : d == r.doc_id
        · rfl
        · rw [beq_iff_eq] at hc
          subst hc
          simp at h
      have h2 : getScoreD ((rrfStep k st r).1) d = getScoreD st.1 d := by
        unfold getScoreD
        rw [show (rrfStep k st r).1 = rrfAdd r.doc_id (1 / (k + (r.rank : ℚ))) st.1
          from rfl]
        rw [lookupQ_rrfAdd_other st.1 r.doc_id d _ hdk]
      rw [h2, List.filter_cons, if_neg (by simp [h])]

theorem rrf_fold_keys (k : ℚ) :
    ∀ (entries : List RDoc) (st : List (String × ℚ) × List (String × DocData)),
      ((entries.foldl (rrfStep k) st).1).map (fun p => p.1)
        = (entries.map (fun r => r.doc_id)).foldl insKey (st.1.map (fun p => p.1)) := by
  intro entries
  induction entries with
  | nil => intro st; rfl
  | cons r es ih =>
    intro st
    rw [List.foldl_cons, ih, List.map_cons, List.foldl_cons]
    rw [show (rrfStep k st r).1 = rrfAdd r.doc_id (1 / (k + (r.rank : ℚ))) st.1
      from rfl]
    rw [rrfAdd_map_fst]

theorem rrf_fold_data_keys (k : ℚ) :
    ∀ (entries : List RDoc) (st : List (String × ℚ) × List (String × DocData)),
      ((entries.foldl (rrfStep k) st).2).map (fun p => p.1)
        = (entries.map (fun r => r.doc_id)).foldl insKey (st.2.map (fun p => p.1)) := by
  intro entries
  induction entries with
  | nil => intro st; rfl
  | cons r es ih =>
    intro st
    rw [List.foldl_cons, ih, List.map_cons, List.foldl_cons]
    rw [show (rrfStep k st r).2 = dataAdd r.doc_id (stripScoreRank r) st.2 from rfl]
    rw [dataAdd_map_fst]

theorem mem_dataAdd {m : List (String × DocData)} {key : String} {d : DocData}
    {q : String × DocData} (hq : q ∈ dataAdd key d m) : q ∈ m ∨ q = (key, d) := by
  induction m with
  | nil => simpa [dataAdd] using hq
  | cons p rest ih =>
    by_cases h : (p.1 == key) = true
    · rw [dataAdd, if_pos h] at hq
      exact Or.inl hq
    · rw [dataAdd, if_neg (by simp [h])] at hq
      rcases List.mem_cons.mp hq with h1 | h1
      · exact Or.inl (h1 ▸ List.mem_cons_self p rest)
      · rcases ih h1 with h2 | h2
        · exact Or.inl (List.mem_cons_of_mem p h2)
        · exact Or.inr h2

theorem rrf_fold_data_docid (k : ℚ) :
    ∀ (entries : List RDoc) (st : List (String × ℚ) × List (String × DocData)),
      (∀ q ∈ st.2, (q.2 : DocData).doc_id = q.1) →
      ∀ q ∈ (entries.foldl (rrfStep k) st).2, (q.2 : DocData).doc_id = q.1 := by
  intro entries
  induction entries with
  | nil => intro st h; exact h
  | cons r es ih =>
    intro st h
    refine ih (rrfStep k st r) ?_
    intro q hq
    rcases mem_dataAdd hq with h1 | h1
    · exact h q h1
    · subst h1
      rfl

theorem lookupData_eq_some_of_mem_fst :
    ∀ {m : List (String × DocData)} {dkey : String},
      dkey ∈ m.map (fun p => p.1) →
      ∃ x, lookupData m dkey = some x ∧ (dkey, x) ∈ m := by
  intro m
  induction m with
  | nil => intro dkey h; simp at h
  | cons p rest ih =>
    intro dkey h
    by_cases hp : (p.1 == dkey) = true
    · rw [beq_iff_eq] at hp
      subst hp
      exact ⟨p.2, by rw [lookupData, if_pos (by simp)], List.mem_cons_self _ _⟩
    · have h2 : dkey ∈ rest.map (fun p => p.1) := by
        rw [List.map_cons] at h
        rcases List.mem_cons.mp h with h3 | h3
        · exfalso
          rw [h3] at hp
          simp at hp
        · exact h3
      obtain ⟨x, hx1, hx2⟩ := ih h2
      exact ⟨x, by rw [lookupData, if_neg (by simp_all)]; exact hx1,
        List.mem_cons_of_mem p hx2⟩

/-! ### First-appearance order -/

/-- The distinct document ids of a scan, in order of first appearance:
the head is kept and its later occurrences are dropped. -/
def firstOccurrences : List String → List String
  | [] => []
  | x :: xs => x :: (firstOccurrences xs).filter (fun y => !(y == x))

theorem mem_firstOccurrences {l : List String} {x : String} :
    x ∈ firstOccurrences l ↔ x ∈ l := by
  induction l with
  | nil => simp [firstOccurrences]
  | cons a l ih =>
    rw [firstOccurrences]
    by_cases hxa : x = a
    · subst hxa
      simp
    · simp only [List.mem_cons, List.mem_filter, ih, hxa, false_or]
      constructor
      · intro h
        exact h.1
      · intro h
        exact ⟨h, by simpa using hxa⟩

theorem nodup_firstOccurrences (l : List String) : (firstOccurrences l).Nodup := by
  induction l with
  | nil => simp [firstOccurrences]
  | cons a l ih =>
    rw [firstOccurrences, List.nodup_cons]
    constructor
    · intro hmem
      have := (List.mem_filter.mp hmem).2
      simp at this
    · exact List.Nodup.filter _ ih

theorem firstOccurrences_concat (l : List String) (x : String) :
    firstOccurrences (l ++ [x])
      = if x ∈ l then firstOccurrences l else firstOccurrences l ++ [x] := by
  induction l with
  | nil => simp [firstOccurrences]
  | cons a l ih =>
    rw [List.cons_append, firstOccurrences, ih]
    by_cases hx : x ∈ l
    · rw [if_pos hx, if_pos (List.mem_cons_of_mem a hx), firstOccurrences]
    · rw [if_neg hx]
      by_cases hxa : x = a
      · subst hxa
        rw [if_pos (List.mem_cons_self x l), firstOccurrences, List.filter_append]
        simp
      · rw [if_neg (by simp [hxa, hx]), firstOccurrences, List.filter_append]
        have : [x].filter (fun y => !(y == a)) = [x] := by simp [hxa]
        rw [this, ← List.cons_append]

theorem foldl_insKey_firstOccurrences (l : List String) :
    l.foldl insKey [] = firstOccurrences l := by
  induction l using List.reverseRecOn with
  | nil => rfl
  | append_singleton l x ih =>
    rw [List.foldl_append, List.foldl_cons, List.foldl_nil, ih]
    rw [insKey, firstOccurrences_concat]
    by_cases hx : x ∈ l
    · rw [if_pos (mem_firstOccurrences.mpr hx), if_pos hx]
    · rw [if_neg (fun hc => hx (mem_firstOccurrences.mp hc)), if_neg hx]

theorem mem_pyEnumerate_snd {start : Nat} {l : List α} {p : Nat × α}
    (h : p ∈ pyEnumerate start l) : p.2 ∈ l := by
  induction l generalizing start with
  | nil => simp [pyEnumerate] at h
  | cons a l ih =>
    rw [pyEnumerate] at h
    rcases List.mem_cons.mp h with h1 | h1
    · rw [h1]
      exact List.mem_cons_self a l
    · exact List.mem_cons_of_mem a (ih h1)

theorem pyEnumerate_map (start : Nat) (g : α → β) (l : List α) :
    pyEnumerate start (l.map g) = (pyEnumerate start l).map (fun q => (q.1, g q.2)) := by
  induction l generalizing start with
  | nil => rfl
  | cons a l ih => simp [pyEnumerate, ih]

/-- The claim's RRF score of a document: over exactly the input lists
containing it, the sum of `1 / (k + rank there)`; a list not containing
the document contributes nothing. -/
def rrfContribution (k : ℚ) (lists : List (List RDoc)) (d : String) : ℚ :=
  (lists.filterMap (fun L => (L.find? (fun r => r.doc_id == d)).map
      (fun r => 1 / (k + (r.rank : ℚ))))).sum

theorem filter_eq_find_of_nodup {L : List RDoc} {d : String}
    (hnd : (L.map (fun r => r.doc_id)).Nodup) :
    L.filter (fun r => r.doc_id == d)
      = (match L.find? (fun r => r.doc_id == d) with
          | some r => [r]
          | none => []) := by
  induction L with
  | nil => rfl
  | cons a L ih =>
    rw [List.map_cons, List.nodup_cons] at hnd
    by_cases h : (a.doc_id == d) = true
    · have hf : List.find? (fun r => r.doc_id == d) (a :: L) = some a := by
        simp [List.find?, h]
      have hnone : L.filter (fun r => r.doc_id == d) = [] := by
        rw [List.filter_eq_nil]
        intro r hr hc
        rw [beq_iff_eq] at h hc
        exact hnd.1 (by rw [h, ← hc]; exact List.mem_map_of_mem _ hr)
      rw [List.filter_cons, if_pos h, hf, hnone]
    · have hf : List.find? (fun r => r.doc_id == d) (a :: L)
          = List.find? (fun r => r.doc_id == d) L := by
        simp [List.find?, h]
      rw [List.filter_cons, if_neg (by simp [h]), hf]
      exact ih hnd.2

theorem flatten_contribution (k : ℚ) (lists : List (List RDoc)) (d : String)
    (hnd : ∀ L ∈ lists, (L.map (fun r => r.doc_id)).Nodup) :
    (((lists.flatten).filter (fun r => r.doc_id == d)).map
        (fun r => 1 / (k + (r.rank : ℚ)))).sum
      = rrfContribution k lists d := by
  induction lists with
  | nil => simp [rrfContribution]
  | cons L ls ih =>
    rw [List.flatten_cons, List.filter_append, List.map_append, List.sum_append]
    rw [filter_eq_find_of_nodup (hnd L (List.mem_cons_self L ls))]
    rw [ih (fun M hM => hnd M (List.mem_cons_of_mem L hM))]
    unfold rrfContribution
    rw [List.filterMap_cons]
    rcases h : L.find? (fun r => r.doc_id == d) with _ | r
    · rw [h]
      simp
    · rw [h]
      simp [add_comm]

theorem lookupData_mem : ∀ {m : List (String × DocData)} {key : String}
    {x : DocData}, lookupData m key = some x → (key, x) ∈ m := by
  intro m
  induction m with
  | nil => intro key x h; simp [lookupData] at h
  | cons p rest ih =>
    intro key x h
    by_cases hp : (p.1 == key) = true
    · rw [lookupData, if_pos hp] at h
      rw [beq_iff_eq] at hp
      cases h
      rw [← hp]
      exact List.mem_cons_self _ _
    · rw [lookupData, if_neg (by simp [hp])] at h
      exact List.mem_cons_of_mem p (ih h)

theorem firstOccurrences_pairwise_indexOf (l : List String) :
    (firstOccurrences l).Pairwise
      (fun a b => List.indexOf a l < List.indexOf b l) := by
  induction l with
  | nil => simp [firstOccurrences]
  | cons a l ih =>
    rw [firstOccurrences]
    refine List.pairwise_cons.mpr ⟨?_, ?_⟩
    · intro b hb
      have hmem := List.mem_filter.mp hb
      have hba : b ≠ a := by
        have := hmem.2
        simpa using this
      rw [List.indexOf_cons_self, List.indexOf_cons_ne l (Ne.symm hba)]
      exact Nat.succ_pos _
    · refine List.Pairwise.imp_of_mem ?_ ((ih).filter _)
      intro x y hx hy hxy
      have hxa : x ≠ a := by
        have := (List.mem_filter.mp hx).2
        simpa using this
      have hya : y ≠ a := by
        have := (List.mem_filter.mp hy).2
        simpa using this
      rw [List.indexOf_cons_ne l (Ne.symm hxa), List.indexOf_cons_ne l (Ne.symm hya)]
      exact Nat.succ_lt_succ hxy

/-- The RRF determinism example's `A` list: `d1` at rank 1, `d2` at
rank 2. -/
def exA : List RDoc :=
  [⟨"d1", "", "", "", "", "", false, 0, 1⟩, ⟨"d2", "", "", "", "", "", false, 0, 2⟩]

/-- The RRF determinism example's `B` list: `d2` at rank 1, `d1` at
rank 2. -/
def exB : List RDoc :=
  [⟨"d2", "", "", "", "", "", false, 0, 1⟩, ⟨"d1", "", "", "", "", "", false, 0, 2⟩]

/-- C2: `reciprocal_rank_fusion` scores each document as the sum, over
exactly the input lists containing it, of `1 / (k + rank there)`
(absence contributes 0), with `k` defaulting to 60 (first conjunct);
assigns contiguous output ranks `1..n`; and the output order is a
permutation of the distinct documents in first-appearance scan order,
strictly sorted by descending fused score with the first-appearance
position as the tie-break (the `lexAfter` conjunct; the conjunct before
it states that first-appearance order is ordered by `indexOf` — the
position of the first occurrence scanning the concatenated input lists
in the order given, hence within the first containing list by rank
there, the lists being rank-sorted).  The final conjunct is the claim's
concrete instance: for `A = [(d1, 1), (d2, 2)]`, `B = [(d2, 1), (d1, 2)]`
and default `k = 60`, both documents score `1/61 + 1/62` and `d1` is
placed first. -/
theorem rrf_spec (result_lists : List (List RDoc)) (k : ℚ)
    (hnd : ∀ L ∈ result_lists, (L.map (fun r => r.doc_id)).Nodup) :
    (∀ ls : List (List RDoc), reciprocal_rank_fusion ls = reciprocal_rank_fusion ls 60) ∧
    (reciprocal_rank_fusion result_lists k).map (fun r => r.rank)
      = List.range' 1 (reciprocal_rank_fusion result_lists k).length ∧
    (∀ r ∈ reciprocal_rank_fusion result_lists k,
      r.score = rrfContribution k result_lists r.doc_id) ∧
    ((reciprocal_rank_fusion result_lists k).map (fun r => r.doc_id)).Perm
      (firstOccurrences ((result_lists.flatten).map (fun r => r.doc_id))) ∧
    (firstOccurrences ((result_lists.flatten).map (fun r => r.doc_id))).Pairwise
      (fun a b => List.indexOf a ((result_lists.flatten).map (fun r => r.doc_id))
        < List.indexOf b ((result_lists.flatten).map (fun r => r.doc_id))) ∧
    (∃ p : List (Nat × String),
      p.Perm (pyEnumerate 0
        (firstOccurrences ((result_lists.flatten).map (fun r => r.doc_id)))) ∧
      (reciprocal_rank_fusion result_lists k).map (fun r => r.doc_id)
        = p.map (fun q => q.2) ∧
      p.Pairwise (lexAfter (fun d => rrfContribution k result_lists d))) ∧
    (reciprocal_rank_fusion [exA, exB]).map (fun r => (r.doc_id, r.score))
      = [("d1", 1/61 + 1/62), ("d2", 1/61 + 1/62)] := by
  have h_keys : (((result_lists.flatten).foldl (rrfStep k) ([], [])).1).map
      (fun p => p.1) = firstOccurrences ((result_lists.flatten).map (fun r => r.doc_id)) := by
    have h1 := rrf_fold_keys k (result_lists.flatten) ([], [])
    rw [h1]
    exact foldl_insKey_firstOccurrences _
  have h_nodup : ((((result_lists.flatten).foldl (rrfStep k) ([], [])).1).map
      (fun p => p.1)).Nodup := by
    rw [h_keys]
    exact nodup_firstOccurrences _
  have h_score : ∀ d, getScoreD (((result_lists.flatten).foldl (rrfStep k) ([], [])).1) d
      = rrfContribution k result_lists d := by
    intro d
    have h1 := rrf_fold_scores k (result_lists.flatten) ([], []) d
    rw [h1, flatten_contribution k result_lists d hnd]
    show (0 : ℚ) + _ = _
    rw [zero_add]
  have h_vals : ∀ q ∈ ((result_lists.flatten).foldl (rrfStep k) ([], [])).1,
      q.2 = rrfContribution k result_lists q.1 := by
    intro q hq
    have h1 := lookupQ_of_mem_nodup h_nodup hq
    have h2 : getScoreD (((result_lists.flatten).foldl (rrfStep k) ([], [])).1) q.1
        = q.2 := by
      rw [getScoreD, h1]
      rfl
    rw [← h2, h_score]
  have h_docid : ∀ q ∈ ((result_lists.flatten).foldl (rrfStep k) ([], [])).2,
      (q.2 : DocData).doc_id = q.1 := by
    refine rrf_fold_data_docid k (result_lists.flatten) ([], []) ?_
    intro q hq
    simp at hq
  have hfused : reciprocal_rank_fusion result_lists k
      = (pyEnumerate 1 (pySortDescBy (fun p => p.2)
          (((result_lists.flatten).foldl (rrfStep k) ([], [])).1))).map (fun p =>
        match lookupData (((result_lists.flatten).foldl (rrfStep k) ([], [])).2) p.2.1 with
        | some d => ⟨d.doc_id, d.title, d.body, d.region, d.product_version,
            d.category, d.deprecated, p.2.2, p.1⟩
        | none => ⟨p.2.1, "", "", "", "", "", false, p.2.2, p.1⟩) := rfl
  have h_fused_ids : (reciprocal_rank_fusion result_lists k).map (fun r => r.doc_id)
      = (pySortDescBy (fun p : String × ℚ => p.2)
          (((result_lists.flatten).foldl (rrfStep k) ([], [])).1)).map (fun q => q.1) := by
    rw [hfused, List.map_map]
    refine Eq.trans (List.map_congr_left
      (g := fun p : Nat × (String × ℚ) => p.2.1) ?_) ?_
    · intro p hp
      rcases h : lookupData (((result_lists.flatten).foldl (rrfStep k) ([], [])).2)
          p.2.1 with _ | d
      · simp [Function.comp, h]
      · simp [Function.comp, h]
        exact h_docid _ (lookupData_mem h)
    · rw [show (fun p : Nat × (String × ℚ) => p.2.1)
          = (fun q : String × ℚ => q.1) ∘ (fun p : Nat × (String × ℚ) => p.2)
          from rfl]
      rw [← List.map_map, pyEnumerate_map_snd]
  refine ⟨fun ls => rfl, ?_, ?_, ?_, firstOccurrences_pairwise_indexOf _, ?_, ?_⟩
  · -- contiguous ranks
    rw [hfused, List.map_map]
    refine Eq.trans (List.map_congr_left
      (g := fun p : Nat × (String × ℚ) => p.1) ?_) ?_
    · intro p hp
      rcases h : lookupData (((result_lists.flatten).foldl (rrfStep k) ([], [])).2)
          p.2.1 with _ | d
      · simp [Function.comp, h]
      · simp [Function.comp, h]
    · rw [pyEnumerate_map_fst, List.length_map, pyEnumerate_length]
  · -- score formula
    intro r hr
    rw [hfused] at hr
    obtain ⟨p, hp, hrp⟩ := List.mem_map.mp hr
    have hmem : p.2 ∈ ((result_lists.flatten).foldl (rrfStep k) ([], [])).1 := by
      have h1 := mem_pyEnumerate_snd hp
      rw [pySortDescBy] at h1
      exact (List.mem_insertionSort _).mp h1
    have hval := h_vals p.2 hmem
    subst hrp
    rcases h : lookupData (((result_lists.flatten).foldl (rrfStep k) ([], [])).2)
        p.2.1 with _ | d
    · simp only [h]
      exact hval
    · simp only [h]
      have hdoc : d.doc_id = p.2.1 := h_docid _ (lookupData_mem h)
      show p.2.2 = rrfContribution k result_lists d.doc_id
      rw [hdoc]
      exact hval
  · -- permutation of the first-appearance key list
    rw [h_fused_ids, ← h_keys]
    refine List.Perm.map _ ?_
    rw [pySortDescBy]
    exact List.perm_insertionSort _ _
  · -- sorted with deterministic tie-break
    obtain ⟨p', hp'perm, hp'eq, hp'pw⟩ := pySortDescBy_characterization
      (fun q : String × ℚ => q.2) (((result_lists.flatten).foldl (rrfStep k) ([], [])).1)
    refine ⟨p'.map (fun q => (q.1, q.2.1)), ?_, ?_, ?_⟩
    · have he : (pyEnumerate 0 (((result_lists.flatten).foldl (rrfStep k) ([], [])).1)).map
          (fun q : Nat × (String × ℚ) => (q.1, q.2.1))
          = pyEnumerate 0 (firstOccurrences
              ((result_lists.flatten).map (fun r => r.doc_id))) := by
        rw [← h_keys, pyEnumerate_map]
      exact he ▸ List.Perm.map _ hp'perm
    · rw [h_fused_ids, hp'eq, List.map_map, List.map_map]
      rfl
    · rw [List.pairwise_map]
      refine List.Pairwise.imp_of_mem ?_ hp'pw
      intro a b ha hb hab
      have hamem : a.2 ∈ ((result_lists.flatten).foldl (rrfStep k) ([], [])).1 :=
        mem_pyEnumerate_snd (hp'perm.mem_iff.mp ha)
      have hbmem : b.2 ∈ ((result_lists.flatten).foldl (rrfStep k) ([], [])).1 :=
        mem_pyEnumerate_snd (hp'perm.mem_iff.mp hb)
      have hva := h_vals a.2 hamem
      have hvb := h_vals b.2 hbmem
      simp only [lexAfter] at hab ⊢
      rw [← hva, ← hvb]
      exact hab
  · -- the concrete determinism example
    norm_num [reciprocal_rank_fusion, rrfStep, rrfAdd, dataAdd, stripScoreRank,
      exA, exB, pySortDescBy, List.insertionSort, List.orderedInsert,
      pyEnumerate, lookupData, List.flatten]
    norm_num [show ("d1" : String) ≠ "d2" from by decide]

/-- Witness for C2 at the claim's own concrete input: the two example
lists are duplicate-free, fusion with the default `k = 60` ranks the
two documents `1` and `2`, and the example conjunct itself. -/
theorem rrf_spec_witness :
    (∀ L ∈ [exA, exB], (L.map (fun r => r.doc_id)).Nodup) ∧
    (reciprocal_rank_fusion [exA, exB]).map (fun r => (r.doc_id, r.score))
      = [("d1", 1/61 + 1/62), ("d2", 1/61 + 1/62)] ∧
    (reciprocal_rank_fusion [exA, exB] 60).map (fun r => r.rank) = [1, 2] := by
  have hnd : ∀ L ∈ [exA, exB], (L.map (fun r => r.doc_id)).Nodup := by
    intro L hL
    rcases List.mem_cons.mp hL with h | h
    · subst h
      decide
    · rcases List.mem_cons.mp h with h1 | h1
      · subst h1
        decide
      · simp at h1
  have h := rrf_spec [exA, exB] 60 hnd
  have hex := h.2.2.2.2.2.2
  refine ⟨hnd, hex, ?_⟩
  have hlen : (reciprocal_rank_fusion [exA, exB] 60).length = 2 := by
    have h1 : ((reciprocal_rank_fusion [exA, exB]).map
        (fun r => (r.doc_id, r.score))).length = 2 := by
      rw [hex]
      rfl
    rw [List.length_map] at h1
    exact h1
  rw [h.2.1, hlen]
  rfl

/-! ### Claim C5 -/

/-- C5: if the dense-branch vector port call fails while a (truthy)
filter is present, `search_dense` retries exactly once with the filter
removed — its result is then exactly the converted unfiltered port
answer, so a failure of the retry propagates (third conjunct) — while a
failure with no truthy filter propagates immediately with the same
error (second conjunct), and the whole hybrid query then fails with
that error: no sparse-only fallback exists at this stage (fourth
conjunct). -/
theorem search_dense_retry (q : Nat → Option Cond → Except PErr ChromaQR)
    (top_k : Nat) (w : Option Cond) (err : PErr) :
    (condTruthy w = true → q top_k w = .error err →
      search_dense q top_k w = Except.map chromaToResults (q top_k none)) ∧
    (condTruthy w = false → q top_k none = .error err →
      search_dense q top_k w = .error err) ∧
    (condTruthy w = true → q top_k w = .error err →
      ∀ err2, q top_k none = .error err2 →
        search_dense q top_k w = .error err2) ∧
    (condTruthy w = false → q (top_k * 3) none = .error err →
      ∀ (idf : String → ℚ) (docs : List Article) (query : String) (rrf_k : ℚ),
        search_hybrid q idf docs query top_k w rrf_k = .error err) := by
  refine ⟨?_, ?_, ?_, ?_⟩
  · intro hw hq
    simp [search_dense, hw, hq]
  · intro hw hq
    simp [search_dense, hw, hq]
  · intro hw hq err2 hq2
    simp [search_dense, hw, hq, hq2, Except.map]
  · intro hw hq idf docs query rrf_k
    have hd : search_dense q (top_k * 3) w = .error err := by
      simp [search_dense, hw, hq]
    simp [search_hybrid, hybridOnce, hd, Bind.bind, Except.bind]

/-- A port that fails whenever a filter is attached and returns an empty
answer otherwise. -/
def portFailFiltered : Nat → Option Cond → Except PErr ChromaQR :=
  fun _ w =>
    match w with
    | some _ => .error .portFailure
    | none => .ok ⟨[], [], [], []⟩

/-- Witness for C5 at a concrete input: with a truthy filter and a
failing filtered call, `search_dense` returns the converted unfiltered
answer. -/
theorem search_dense_retry_witness :
    condTruthy (some [("region", J.s "EU")]) = true ∧
    search_dense portFailFiltered 5 (some [("region", J.s "EU")])
      = Except.map chromaToResults (portFailFiltered 5 none) ∧
    search_hybrid (fun _ _ => .error .portFailure) (fun _ => 0) [] "q" 5 none 60
      = .error .portFailure := by
  have h := (search_dense_retry portFailFiltered 5
    (some [("region", J.s "EU")]) .portFailure).1
  have h2 := (search_dense_retry (fun _ _ => .error .portFailure) 5 none
    .portFailure).2.2.2 rfl rfl (fun _ => 0) [] "q" 60
  exact ⟨rfl, h rfl rfl, h2⟩

/-! ### Claim C4 -/

/-- C4: if the fused result of hybrid search is empty and a (truthy)
filter was supplied, `search_hybrid` re-runs the whole body exactly once
with the filter removed and returns those results truncated to `top_k`
(first conjunct; the right-hand side is the filterless body, which
cannot recurse again); an empty unfiltered retry yields `ok []`, a
valid non-error outcome (second conjunct); without the fallback
condition the fused result itself is truncated to `top_k` (third
conjunct); and every successful output has at most `top_k` entries
(fourth conjunct). -/
theorem search_hybrid_fallback (port : Nat → Option Cond → Except PErr ChromaQR)
    (idf : String → ℚ) (docs : List Article) (query : String) (top_k : Nat)
    (w : Option Cond) (rrf_k : ℚ) :
    (condTruthy w = true →
      hybridOnce port idf docs query top_k w rrf_k = .ok [] →
      search_hybrid port idf docs query top_k w rrf_k
        = Except.map (List.take top_k)
            (hybridOnce port idf docs query top_k none rrf_k)) ∧
    (condTruthy w = true →
      hybridOnce port idf docs query top_k w rrf_k = .ok [] →
      hybridOnce port idf docs query top_k none rrf_k = .ok [] →
      search_hybrid port idf docs query top_k w rrf_k = .ok []) ∧
    (∀ f, hybridOnce port idf docs query top_k w rrf_k = .ok f → f ≠ [] →
      search_hybrid port idf docs query top_k w rrf_k = .ok (f.take top_k)) ∧
    (∀ out, search_hybrid port idf docs query top_k w rrf_k = .ok out →
      out.length ≤ top_k) := by
  refine ⟨?_, ?_, ?_, ?_⟩
  · intro hw h1
    rcases h2 : hybridOnce port idf docs query top_k none rrf_k with e | f2
    · simp [search_hybrid, h1, h2, hw, Bind.bind, Except.bind, Except.map]
    · simp [search_hybrid, h1, h2, hw, Bind.bind, Except.bind, Except.map,
        pure, Except.pure]
  · intro hw h1 h2
    simp [search_hybrid, h1, h2, hw, Bind.bind, Except.bind, pure, Except.pure]
  · intro f h1 hne
    have hemp : f.isEmpty = false := by
      cases f
      · exact absurd rfl hne
      · rfl
    simp [search_hybrid, h1, hemp, Bind.bind, Except.bind, pure, Except.pure]
  · intro out hout
    rcases h1 : hybridOnce port idf docs query top_k w rrf_k with e | f
    · simp [search_hybrid, h1, Bind.bind, Except.bind] at hout
    · rw [search_hybrid] at hout
      simp only [h1, Bind.bind, Except.bind] at hout
      by_cases hcond : (f.isEmpty && condTruthy w) = true
      · rw [if_pos hcond] at hout
        rcases h2 : hybridOnce port idf docs query top_k none rrf_k with e | f2
        · rw [h2] at hout
          simp [Bind.bind, Except.bind] at hout
        · rw [h2] at hout
          simp only [Bind.bind, Except.bind, pure, Except.pure,
            Except.ok.injEq] at hout
          rw [← hout, List.length_take]
          exact Nat.min_le_left _ _
      · rw [if_neg hcond] at hout
        simp only [pure, Except.pure, Except.ok.injEq] at hout
        rw [← hout, List.length_take]
        exact Nat.min_le_left _ _

/-- An all-zero idf table, used by concrete witnesses (the theorems hold
for every idf). -/
def idfZero : String → ℚ := fun _ => 0

/-- A port that always answers with an empty result set. -/
def portEmpty : Nat → Option Cond → Except PErr ChromaQR :=
  fun _ _ => .ok ⟨[], [], [], []⟩

/-- Witness for C4 at a concrete input: over an empty corpus both
branches are empty, the filtered body fuses to `[]`, and the unfiltered
retry is also empty, so the query returns `ok []` — a valid non-error
outcome. -/
theorem search_hybrid_fallback_witness :
    condTruthy (some [("region", J.s "EU")]) = true ∧
    search_hybrid portEmpty idfZero [] "q" 5 (some [("region", J.s "EU")]) 60
      = .ok [] := by
  have h1 : hybridOnce portEmpty idfZero [] "q" 5 (some [("region", J.s "EU")]) 60
      = .ok [] := by
    simp [hybridOnce, search_dense, portEmpty, chromaToResults, chromaGo,
      sparse_branch, bm25Search, get_scores, corpusTokens, pySortDescBy,
      List.insertionSort, pyEnumerate, apply_filters, applyFiltersGo, rerank,
      enrich, reciprocal_rank_fusion, rrfStep, Bind.bind, Except.bind,
      pure, Except.pure, idfZero]
  have h2 : hybridOnce portEmpty idfZero [] "q" 5 none 60 = .ok [] := by
    simp [hybridOnce, search_dense, portEmpty, chromaToResults, chromaGo,
      sparse_branch, bm25Search, get_scores, corpusTokens, pySortDescBy,
      List.insertionSort, pyEnumerate, rerank, enrich,
      reciprocal_rank_fusion, rrfStep, Bind.bind, Except.bind,
      pure, Except.pure, idfZero]
  exact ⟨rfl, (search_hybrid_fallback portEmpty idfZero [] "q" 5
    (some [("region", J.s "EU")]) 60).2.1 rfl h1 h2⟩

/-! ### Claim C3 -/

theorem rerank_length (l : List BMItem) : (rerank l).length = l.length := by
  rw [rerank, List.length_map, pyEnumerate_length]

theorem rerank_map_rank (l : List BMItem) :
    (rerank l).map (fun r => r.rank) = List.range' 1 l.length := by
  rw [rerank, List.map_map]
  rw [show ((fun r : BMItem => r.rank)
      ∘ fun p : Nat × BMItem => { p.2 with rank := p.1 })
      = (fun p : Nat × BMItem => p.1) from rfl]
  rw [pyEnumerate_map_fst]

theorem rerank_map_id_score (l : List BMItem) :
    (rerank l).map (fun r => (r.doc_id, r.score))
      = l.map (fun r => (r.doc_id, r.score)) := by
  rw [rerank, List.map_map]
  rw [show ((fun r : BMItem => (r.doc_id, r.score))
      ∘ fun p : Nat × BMItem => { p.2 with rank := p.1 })
      = (fun r : BMItem => (r.doc_id, r.score)) ∘ (fun p : Nat × BMItem => p.2)
      from rfl]
  rw [← List.map_map, pyEnumerate_map_snd]

/-- C3: with a truthy filter, the sparse branch fetches `top_k * 10`
unfiltered BM25 candidates, keeps exactly those satisfying the filter
(first conjunct, in original order), re-ranks the survivors contiguously
from 1 without touching their ids or scores (rank and id/score
conjuncts), takes the first `top_k * 3` (second and fourth conjuncts),
and falls back to an unfiltered `top_k * 3` BM25 query instead of
returning empty when filtering eliminated every candidate (third
conjunct); the final conjunct shows the whole body of `search_hybrid`
queries the dense port exactly once, before the sparse branch, so the
branch-local fallback never re-queries it. -/
theorem sparse_branch_spec (idf : String → ℚ) (docs : List Article)
    (query : String) (top_k : Nat) (wc : Cond) (hw : wc ≠ [])
    (survivors : List BMItem)
    (hs : apply_filters (fun r => r.doc_id)
      (bm25Search idf docs query (top_k * 10)) wc (articlesById docs)
        = .ok survivors) :
    survivors = (bm25Search idf docs query (top_k * 10)).filter
      (fun r => matchesFilter (articlesById docs) wc r.doc_id) ∧
    sparse_branch idf docs query top_k (some wc)
      = .ok (if (rerank survivors).take (top_k * 3) = []
             then bm25Search idf docs query (top_k * 3)
             else (rerank survivors).take (top_k * 3)) ∧
    (survivors = [] →
      sparse_branch idf docs query top_k (some wc)
        = .ok (bm25Search idf docs query (top_k * 3))) ∧
    (0 < top_k → survivors ≠ [] →
      sparse_branch idf docs query top_k (some wc)
        = .ok ((rerank survivors).take (top_k * 3))) ∧
    (rerank survivors).map (fun r => r.rank) = List.range' 1 survivors.length ∧
    (rerank survivors).map (fun r => (r.doc_id, r.score))
      = survivors.map (fun r => (r.doc_id, r.score)) ∧
    (∀ (port : Nat → Option Cond → Except PErr ChromaQR) (rrf_k : ℚ),
      hybridOnce port idf docs query top_k (some wc) rrf_k
        = (search_dense port (top_k * 3) (some wc)).bind (fun dense =>
            (sparse_branch idf docs query top_k (some wc)).map (fun sr =>
              reciprocal_rank_fusion [dense, enrich docs sr] rrf_k))) := by
  have hwEmpty : wc.isEmpty = false := by
    cases wc
    · exact absurd rfl hw
    · rfl
  have h2 : sparse_branch idf docs query top_k (some wc)
      = .ok (if (rerank survivors).take (top_k * 3) = []
             then bm25Search idf docs query (top_k * 3)
             else (rerank survivors).take (top_k * 3)) := by
    rw [sparse_branch]
    rw [if_neg (by simp [hwEmpty])]
    simp only [hs, Bind.bind, Except.bind, pure, Except.pure]
    by_cases he : (rerank survivors).take (top_k * 3) = []
    · rw [if_pos he, if_pos (List.isEmpty_iff.mpr he)]
    · rw [if_neg he, if_neg (by simp [List.isEmpty_iff, he])]
  refine ⟨?_, h2, ?_, ?_, rerank_map_rank survivors, rerank_map_id_score survivors, ?_⟩
  · rw [apply_filters, if_neg (by simp [hwEmpty])] at hs
    exact applyFiltersGo_filter hs
  · intro hsnil
    subst hsnil
    rw [h2, if_pos]
    simp [rerank, pyEnumerate]
  · intro htk hsne
    rw [h2, if_neg]
    intro hc
    have hlen := congrArg List.length hc
    rw [List.length_take, rerank_length, inf_eq_min] at hlen
    have h0 : 0 < survivors.length := List.length_pos.mpr hsne
    simp only [List.length_nil] at hlen
    omega
  · intro port rrf_k
    rw [hybridOnce]
    rcases hd : search_dense port (top_k * 3) (some wc) with e | dense
    · simp [Bind.bind, Except.bind, Except.map]
    · rcases hsp : sparse_branch idf docs query top_k (some wc) with e | sr
      · simp [Bind.bind, Except.bind, Except.map]
      · simp [Bind.bind, Except.bind, Except.map, pure, Except.pure]

/-- An EU article with empty text, used by search witnesses. -/
def artC : Article := ⟨"C1", "", "", "EU", "v3.0", "networking", false, "2024-01-01", []⟩

/-- A US article with empty text, used by search witnesses. -/
def artD : Article := ⟨"D1", "", "", "US", "v1.0", "billing", false, "2023-01-01", []⟩

/-- Witness for C3 at a concrete input: with `top_k = 1` and a
`region = EU` filter over the two sample articles, the branch keeps the
EU row of the ten-candidate fetch and returns it re-ranked. -/
theorem sparse_branch_spec_witness :
    sparse_branch idfZero [artC, artD] "z" 1
      (some [("region", J.obj [("$eq", J.s "EU")])]) = .ok [⟨"C1", 0, 1⟩] := by
  have hbm : bm25Search idfZero [artC, artD] "z" (1 * 10)
      = [⟨"C1", 0, 1⟩, ⟨"D1", 0, 2⟩] := by
    simp [bm25Search, get_scores, corpusTokens, artC, artD, idfZero,
      tokenize, findTokens, isAlnum, isTokChar, dropTrailingHyphens,
      pySortDescBy, List.insertionSort, List.orderedInsert, pyEnumerate]
  have hs : apply_filters (fun r : BMItem => r.doc_id)
      (bm25Search idfZero [artC, artD] "z" (1 * 10))
      [("region", J.obj [("$eq", J.s "EU")])] (articlesById [artC, artD])
      = .ok [⟨"C1", 0, 1⟩] := by
    rw [hbm]
    simp [apply_filters, applyFiltersGo, articlesById, artC, artD, List.find?,
      flattenMeta, evalCond, lookupJ, evalFields, evalOps,
      pyEqOpt, jEq, Bind.bind, Except.bind, pure, Except.pure]
  have h := sparse_branch_spec idfZero [artC, artD] "z" 1
    [("region", J.obj [("$eq", J.s "EU")])] (by simp) [⟨"C1", 0, 1⟩] hs
  rw [h.2.2.2.1 (by norm_num) (by simp)]
  simp [rerank, pyEnumerate]

/-! ### Claim C9 -/

theorem range'_take (s n m : Nat) :
    (List.range' s n).take m = List.range' s (min m n) := by
  induction n generalizing s m with
  | zero => simp
  | succ n ih =>
    cases m with
    | zero => simp
    | succ m' =>
      rw [List.range'_succ, List.take_succ_cons, ih, Nat.succ_min_succ,
        List.range'_succ]

theorem map_rank_take {α : Type} (rk : α → Nat) {l : List α} (m : Nat)
    (h : l.map rk = List.range' 1 l.length) :
    (l.take m).map rk = List.range' 1 ((l.take m).length) := by
  rw [List.map_take, h, range'_take, List.length_take, inf_eq_min]

theorem rrf_map_rank (result_lists : List (List RDoc)) (k : ℚ) :
    (reciprocal_rank_fusion result_lists k).map (fun r => r.rank)
      = List.range' 1 (reciprocal_rank_fusion result_lists k).length := by
  have hfused : reciprocal_rank_fusion result_lists k
      = (pyEnumerate 1 (pySortDescBy (fun p => p.2)
          (((result_lists.flatten).foldl (rrfStep k) ([], [])).1))).map (fun p =>
        match lookupData (((result_lists.flatten).foldl (rrfStep k) ([], [])).2) p.2.1 with
        | some d => ⟨d.doc_id, d.title, d.body, d.region, d.product_version,
            d.category, d.deprecated, p.2.2, p.1⟩
        | none => ⟨p.2.1, "", "", "", "", "", false, p.2.2, p.1⟩) := rfl
  rw [hfused, List.map_map]
  refine Eq.trans (List.map_congr_left
    (g := fun p : Nat × (String × ℚ) => p.1) ?_) ?_
  · intro p hp
    rcases h : lookupData (((result_lists.flatten).foldl (rrfStep k) ([], [])).2)
        p.2.1 with _ | d
    · simp [Function.comp, h]
    · simp [Function.comp, h]
  · rw [pyEnumerate_map_fst, List.length_map, pyEnumerate_length]

theorem hybridOnce_ok_shape {port : Nat → Option Cond → Except PErr ChromaQR}
    {idf : String → ℚ} {docs : List Article} {query : String} {top_k : Nat}
    {w : Option Cond} {rrf_k : ℚ} {f : List RDoc}
    (h : hybridOnce port idf docs query top_k w rrf_k = .ok f) :
    ∃ ls, f = reciprocal_rank_fusion ls rrf_k := by
  rw [hybridOnce] at h
  rcases hd : search_dense port (top_k * 3) w with e | dense
  · rw [hd] at h
    simp [Bind.bind, Except.bind] at h
  · rw [hd] at h
    rcases hsp : sparse_branch idf docs query top_k w with e | sr
    · rw [hsp] at h
      simp [Bind.bind, Except.bind] at h
    · rw [hsp] at h
      simp only [Bind.bind, Except.bind, pure, Except.pure, Except.ok.injEq] at h
      exact ⟨[dense, enrich docs sr], h.symm⟩

/-- C9: every ranked list the system produces has rank values that are
contiguous integers starting at 1: the BM25 search output, the
re-ranked post-filter sparse subset after truncation, the RRF fusion
output, and every successful (truncated) hybrid result. -/
theorem ranks_contiguous (idf : String → ℚ) (docs : List Article) (query : String)
    (top_k m : Nat) (l : List BMItem) (result_lists : List (List RDoc)) (k : ℚ)
    (port : Nat → Option Cond → Except PErr ChromaQR) (w : Option Cond)
    (rrf_k : ℚ) :
    (bm25Search idf docs query top_k).map (fun r => r.rank)
      = List.range' 1 (bm25Search idf docs query top_k).length ∧
    ((rerank l).take m).map (fun r => r.rank)
      = List.range' 1 (((rerank l).take m).length) ∧
    (reciprocal_rank_fusion result_lists k).map (fun r => r.rank)
      = List.range' 1 (reciprocal_rank_fusion result_lists k).length ∧
    (∀ out, search_hybrid port idf docs query top_k w rrf_k = .ok out →
      out.map (fun r => r.rank) = List.range' 1 out.length) := by
  refine ⟨?_, ?_, rrf_map_rank result_lists k, ?_⟩
  · rw [bm25Search_map_rank, bm25Search_length]
  · refine map_rank_take _ m ?_
    rw [rerank_map_rank, rerank_length]
  · intro out hout
    rcases h1 : hybridOnce port idf docs query top_k w rrf_k with e | f
    · simp [search_hybrid, h1, Bind.bind, Except.bind] at hout
    · rw [search_hybrid] at hout
      simp only [h1, Bind.bind, Except.bind] at hout
      by_cases hcond : (f.isEmpty && condTruthy w) = true
      · rw [if_pos hcond] at hout
        rcases h2 : hybridOnce port idf docs query top_k none rrf_k with e | f2
        · rw [h2] at hout
          simp [Bind.bind, Except.bind] at hout
        · rw [h2] at hout
          simp only [Bind.bind, Except.bind, pure, Except.pure,
            Except.ok.injEq] at hout
          obtain ⟨ls, hshape⟩ := hybridOnce_ok_shape h2
          rw [← hout, hshape]
          exact map_rank_take _ top_k (rrf_map_rank ls rrf_k)
      · rw [if_neg hcond] at hout
        simp only [pure, Except.pure, Except.ok.injEq] at hout
        obtain ⟨ls, hshape⟩ := hybridOnce_ok_shape h1
        rw [← hout, hshape]
        exact map_rank_take _ top_k (rrf_map_rank ls rrf_k)

/-- Witness for C9 at a concrete input: a full hybrid query over the two
sample articles succeeds with one result, whose rank list is exactly
`range' 1 1 = [1]`. -/
theorem ranks_contiguous_witness :
    search_hybrid portEmpty idfZero [artC, artD] "z" 1 none 60
      = .ok [⟨"C1", "", "", "EU", "v3.0", "networking", false, 1/61, 1⟩] ∧
    ([(⟨"C1", "", "", "EU", "v3.0", "networking", false, 1/61, 1⟩ : RDoc)]).map
      (fun r => r.rank) = List.range' 1 1 := by
  have hev : search_hybrid portEmpty idfZero [artC, artD] "z" 1 none 60
      = .ok [⟨"C1", "", "", "EU", "v3.0", "networking", false, 1/61, 1⟩] := by
    simp [search_hybrid, hybridOnce, search_dense, portEmpty, chromaToResults,
      chromaGo, sparse_branch, bm25Search, get_scores, corpusTokens, artC, artD,
      idfZero, tokenize, findTokens, isAlnum, isTokChar, dropTrailingHyphens,
      pySortDescBy, List.insertionSort, List.orderedInsert, pyEnumerate,
      enrich, articlesById, List.find?, reciprocal_rank_fusion, rrfStep, rrfAdd,
      dataAdd, stripScoreRank, lookupData, Bind.bind, Except.bind, pure,
      Except.pure]
    norm_num
    norm_num [pyEnumerate]
  exact ⟨hev, (ranks_contiguous idfZero [artC, artD] "z" 1 0 [] [] 60 portEmpty
    none 60).2.2.2 _ hev⟩

end RagDemo
